import Mathlib

/-!
Verification of the document-ingestion index pipeline (slackbot/index_pipeline).

This file gives a shallow embedding of the pipeline's core components —
`Scanner`, `BatchBuilder`, `FileParser`, `EmbedWorker`, `ChunkStore` /
`UpsertWorker` and `IndexService` — and proves properties about them.
External collaborators (the filesystem, the zip reader, the document reader,
the token splitter, the TEI embedding sidecar, and node-id generation) are
modelled as explicit oracle functions; everything the repository's own code
computes is translated directly from the source.

Machine integers do not overflow in the modelled code paths, so sizes and
timestamps are `Nat`; embedding vectors are `List Int` (their numeric values
are never inspected by the pipeline).  All definitions are fuel-based or
structural so that concrete runs reduce inside the kernel.
-/

/-- Lexicographic comparison of char lists by code point, the order Python
uses to compare strings (and hence `pathlib.Path`s inside one directory). -/
def charsLe : List Char → List Char → Bool
  | [], _ => true
  | _ :: _, [] => false
  | a :: as, b :: bs =>
    if a.toNat < b.toNat then true
    else if b.toNat < a.toNat then false
    else charsLe as bs

/-- String comparison by code points, as Python's `sorted` uses. -/
def strLe (a b : String) : Bool := charsLe a.data b.data

/-- Model of Python's `str.endswith` (used for `".zip"` and `"/"` tests). -/
def strEndsWith (s pat : String) : Bool := pat.data.isSuffixOf s.data

/-- Insertion of an element into a sorted list, the helper of `sortBy`. -/
def insertSorted (le : α → α → Bool) (x : α) : List α → List α
  | [] => [x]
  | y :: ys => if le x y then x :: y :: ys else y :: insertSorted le x ys

/-- Model of Python's `sorted` (a stable comparison sort). -/
def sortBy (le : α → α → Bool) (l : List α) : List α :=
  l.foldr (insertSorted le) []

/-- Fuel-driven slicing helper: the recursion of `items[i : i + size]` loops. -/
def chunkEveryFuel (size : Nat) : Nat → List α → List (List α)
  | 0, _ => []
  | _, [] => []
  | fuel + 1, l => l.take size :: chunkEveryFuel size fuel (l.drop size)

/-- Model of `[items[i : i + size] for i in range(0, len(items), size)]`
for a positive step `size`. -/
def chunkEvery (size : Nat) (l : List α) : List (List α) :=
  chunkEveryFuel size l.length l

/-- Fuel-driven helper of `commaFmt`: walks the reversed digit list and puts
a comma after every three characters while more remain. -/
def commaRevFuel : Nat → List Char → List Char
  | 0, l => l
  | fuel + 1, a :: b :: c :: d :: rest => a :: b :: c :: ',' :: commaRevFuel fuel (d :: rest)
  | _, l => l

/-- Model of Python's `f"{n:,}"` thousands-separated decimal formatting. -/
def commaFmt (n : Nat) : String :=
  ⟨(commaRevFuel (toString n).data.length (toString n).data.reverse).reverse⟩

/-- Python whitespace characters, as stripped by `str.strip()`. -/
def pyIsSpace (c : Char) : Bool :=
  c == ' ' || c == '\t' || c == '\n' || c == '\r' || c == Char.ofNat 11 || c == Char.ofNat 12

/-- Model of the `if text and text.strip():` keep-test of `_parse_zip`:
the text is kept iff it is neither `None` nor empty nor whitespace-only. -/
def keepText? : Option String → Option String
  | none => none
  | some t => if t.data.any (fun c => !pyIsSpace c) then some t else none

/-- Chunk metadata as persisted to the store: the keys `source`, `filename`
and `fingerprint` of the metadata dict (absent key = `none`). -/
structure ChunkMeta where
  source : Option String
  filename : Option String
  fingerprint : Option String
deriving DecidableEq

/-- One store row: `(chunk_id, vector, text, metadata)`. -/
structure Row where
  id : String
  vec : List Int
  text : String
  meta : ChunkMeta
deriving DecidableEq

/-- One entry of the docs directory as `Path.iterdir` and `Path.stat` see it.
The `content` field models the file's bytes; the pipeline itself never reads
it directly (only through the reader oracles), which is exactly why content
does not enter the fingerprint. -/
structure FileEntry where
  name : String
  isFile : Bool
  mtime_ns : Nat
  size : Nat
  content : String
deriving DecidableEq

/-- The filesystem visible to one run: the docs directory listing
(`none` when the directory does not exist) and `zipfile.namelist()`
for each archive path. -/
structure FS where
  docsDir : Option (List FileEntry)
  zipNames : String → List String

/-- A parsed document: text plus the metadata tagged onto it. -/
structure Doc where
  text : String
  meta : ChunkMeta
deriving DecidableEq

/-- A splitter node: fresh id, chunk text, inherited document metadata. -/
structure Node where
  id : String
  text : String
  meta : ChunkMeta
deriving DecidableEq

/-- A work unit as built by `BatchBuilder.build`: either a list of loose file
paths (`{"type": "files"}`) or one archive's assigned entry names
(`{"type": "zip_entries"}`). -/
inductive WorkUnit where
  | files (paths : List String)
  | zipEntries (zipPath : String) (entries : List String)
deriving DecidableEq

/-- The external collaborators of one run, as deterministic oracles:
`readDoc` is `SimpleDirectoryReader.load_data` on a loose file,
`readZipEntry` is `_read_zip_entry` (`none` models a swallowed exception),
`splitText` is the `TokenTextSplitter` on one document text,
`tei` is one `POST /embed` request (texts in, vectors out),
`teiBatchSize` is the sidecar driver's `BATCH_SIZE`, and
`mkId` hands out the node ids generated for worker `wid`'s `k`-th node. -/
structure Oracles where
  readDoc : String → List String
  readZipEntry : String → String → Option String
  splitText : String → List String
  tei : List String → List (List Int)
  teiBatchSize : Nat
  mkId : Nat → Nat → String

/-- Model of `Scanner._fingerprint`: the string `f"{stat.st_mtime_ns}:{stat.st_size}"`. -/
def fingerprintOf (e : FileEntry) : String :=
  toString e.mtime_ns ++ ":" ++ toString e.size

/-- Model of `Scanner.scan`: return `[]` when the docs dir is missing,
else sort the regular files, keep those whose fingerprint differs from the
indexed one, and return their names. -/
def Scanner.scan (fs : FS) (indexed : String → Option String) : List String :=
  match fs.docsDir with
  | none => []
  | some es =>
    let allFiles := sortBy (fun a b => strLe a.name b.name) (es.filter (·.isFile))
    let changed := allFiles.filter (fun e => decide (indexed e.name ≠ some (fingerprintOf e)))
    changed.map (·.name)

/-- Model of `BatchBuilder._chunk`: split `items` into groups of
`math.ceil(len(items) / n)` each (empty input gives no groups). -/
def BatchBuilder.chunk (n : Nat) (items : List α) : List (List α) :=
  if items.isEmpty then [] else chunkEvery ((items.length + n - 1) / n) items

/-- Model of `BatchBuilder._split_files`: distribute the non-`.zip` files. -/
def BatchBuilder.split_files (n : Nat) (files : List String) : List WorkUnit :=
  (BatchBuilder.chunk n (files.filter (fun f => !strEndsWith f ".zip"))).map WorkUnit.files

/-- Model of `BatchBuilder._split_zips`: expand each `.zip` file and
distribute its non-directory entries. -/
def BatchBuilder.split_zips (n : Nat) (zipfs : String → List String)
    (files : List String) : List WorkUnit :=
  files.flatMap (fun p =>
    if strEndsWith p ".zip" then
      (BatchBuilder.chunk n ((zipfs p).filter (fun e => !strEndsWith e "/"))).map
        (WorkUnit.zipEntries p)
    else [])

/-- Model of `BatchBuilder.build`: loose-file units, then archive units, each
paired with a densely assigned worker id. -/
def BatchBuilder.build (n : Nat) (zipfs : String → List String)
    (files : List String) : List (WorkUnit × Nat) :=
  ((BatchBuilder.split_files n files ++ BatchBuilder.split_zips n zipfs files).enum).map
    (fun p => (p.2, p.1))

/-- Model of `file_parser._fingerprint(path)` at embed time: stat the named
directory entry.  (The worker stats a file handed to it by the scanner, so
the entry is present; a missing name yields the junk value `""`.) -/
def statFingerprint (fs : FS) (nm : String) : String :=
  match (fs.docsDir.getD []).find? (fun e => e.name == nm) with
  | some e => fingerprintOf e
  | none => ""

/-- Model of `FileParser._parse_files`: read each path with the generic
reader and tag every resulting document with `source` and `fingerprint`. -/
def FileParser.parse_files (fs : FS) (o : Oracles) (paths : List String) : List Doc :=
  paths.flatMap (fun nm =>
    (o.readDoc nm).map (fun t =>
      { text := t
        meta := { source := some nm, filename := none
                  fingerprint := some (statFingerprint fs nm) } }))

/-- Model of `FileParser._parse_zip`: extract each assigned entry, drop the
empty or whitespace-only ones, and share the archive's source name and
fingerprint. -/
def FileParser.parse_zip (fs : FS) (o : Oracles) (zipName : String)
    (entries : List String) : List Doc :=
  entries.filterMap (fun en =>
    (keepText? (o.readZipEntry zipName en)).map (fun t =>
      { text := t
        meta := { source := some zipName, filename := some en
                  fingerprint := some (statFingerprint fs zipName) } }))

/-- Model of `FileParser.parse`: dispatch on the work-unit tag. -/
def FileParser.parse (fs : FS) (o : Oracles) : WorkUnit → List Doc
  | WorkUnit.files ps => FileParser.parse_files fs o ps
  | WorkUnit.zipEntries z es => FileParser.parse_zip fs o z es

/-- Model of `EmbedWorker._embed_texts`: POST each `teiBatchSize`-sized slice
of the texts and append the returned vectors in order. -/
def embedTexts (bsz : Nat) (tei : List String → List (List Int))
    (texts : List String) : List (List Int) :=
  ((chunkEvery bsz texts).map tei).flatten

/-- Model of `splitter.get_nodes_from_documents`: split each document in
order, let every node inherit its document's metadata, and give the `k`-th
node of the invocation the fresh id `mkId wid k`. -/
def getNodes (o : Oracles) (wid : Nat) (docs : List Doc) : List Node :=
  ((docs.flatMap (fun d => (o.splitText d.text).map (fun t => (t, d.meta)))).enum).map
    (fun p => { id := o.mkId wid p.1, text := p.2.1, meta := p.2.2 })

/-- The row list built by `zip(nodes, embeddings, texts)` plus the tuple
construction `(n.node_id, emb, text, n.metadata)` (Python's `zip` truncates
at the shortest list). -/
def mkRows (nodes : List Node) (embs : List (List Int)) (texts : List String) : List Row :=
  (nodes.zip (embs.zip texts)).map
    (fun p => { id := p.1.id, vec := p.2.1, text := p.2.2, meta := p.1.meta })

/-- Model of the body of `EmbedWorker._chunk_and_embed` after the splitter
call: embed the node texts and zip ids, vectors, texts and metadata. -/
def chunkAndEmbed (o : Oracles) (nodes : List Node) : List Row :=
  if nodes.isEmpty then []
  else mkRows nodes (embedTexts o.teiBatchSize o.tei (nodes.map (·.text))) (nodes.map (·.text))

/-- Model of `EmbedWorker.embed`: parse, chunk, embed; returns
`(chunks, worker_id)`. -/
def EmbedWorker.embed (o : Oracles) (fs : FS) (work : WorkUnit) (wid : Nat) :
    List Row × Nat :=
  (chunkAndEmbed o (getNodes o wid (FileParser.parse fs o work)), wid)

/-- Model of `UPSERT_BATCH` in `chunk_store.py`. -/
def UPSERT_BATCH : Nat := 5000

/-- Model of one `collection.upsert(ids, embeddings, documents, metadatas)`
call: insert-or-replace each row by id, keeping the collection's row order
(existing ids are updated in place, new ids appended). -/
def collection_upsert (store batch : List Row) : List Row :=
  batch.foldl (fun st r =>
    if st.any (fun x => x.id == r.id) then st.map (fun x => if x.id == r.id then r else x)
    else st ++ [r]) store

/-- Model of `ChunkStore.upsert`: nothing on an empty batch, otherwise one
store call per `UPSERT_BATCH`-sized sub-batch, in order. -/
def ChunkStore.upsert (store chunks : List Row) (_workerId : Nat) : List Row :=
  if chunks.isEmpty then store
  else (chunkEvery UPSERT_BATCH chunks).foldl collection_upsert store

/-- Call-trace semantics of the `ChunkStore.upsert` loop against a fallible
store: `fail k b` tells whether the `k`-th `collection.upsert` call (on
sub-batch `b`) raises.  Returns the sub-batches actually attempted, in
order, and whether the invocation completed; a raised exception propagates
out of the `for` loop at once, so the failing sub-batch ends the trace. -/
def upsertCallsGo (fail : Nat → List Row → Bool) : Nat → List (List Row) → List (List Row) × Bool
  | _, [] => ([], true)
  | k, b :: bs =>
    if fail k b then ([b], false)
    else (b :: (upsertCallsGo fail (k + 1) bs).1, (upsertCallsGo fail (k + 1) bs).2)

/-- Model of the store calls `ChunkStore.upsert` issues (see `upsertCallsGo`). -/
def ChunkStore.upsertCalls (fail : Nat → List Row → Bool) (chunks : List Row) :
    List (List Row) × Bool :=
  if chunks.isEmpty then ([], true)
  else upsertCallsGo fail 0 (chunkEvery UPSERT_BATCH chunks)

/-- One step of the `get_indexed_files` loop: bind `indexed[source] = fingerprint`
when both metadata values are truthy (present and non-empty), else keep the
dict unchanged. -/
def gifStep (m : String → Option String) (meta : ChunkMeta) : String → Option String :=
  match meta.source, meta.fingerprint with
  | some s, some f =>
    if s.data.isEmpty || f.data.isEmpty then m
    else fun q => if q == s then some f else m q
  | _, _ => m

/-- Model of `ChunkStore.get_indexed_files` over the metadata list returned
by `collection.get(include=["metadatas"])` (rows in collection order). -/
def ChunkStore.gifMetas (metas : List ChunkMeta) : String → Option String :=
  metas.foldl gifStep (fun _ => none)

/-- Model of `ChunkStore.get_indexed_files`: scan all row metadata. -/
def ChunkStore.get_indexed_files (store : List Row) : String → Option String :=
  ChunkStore.gifMetas (store.map (·.meta))

/-- Model of `config.N_WORKERS`. -/
def N_WORKERS : Nat := 8

/-- Model of `config.WORKERS_PER_GPU`. -/
def WORKERS_PER_GPU : Nat := 4

/-- The batches one `IndexService.index` run builds: scan, then build with
`W = N_WORKERS * WORKERS_PER_GPU`. -/
def IndexService.batches (fs : FS) (store : List Row) : List (WorkUnit × Nat) :=
  BatchBuilder.build (N_WORKERS * WORKERS_PER_GPU) fs.zipNames
    (Scanner.scan fs (ChunkStore.get_indexed_files store))

/-- The embed results of one run, one `(chunks, worker_id)` per work unit.
`starmap(..., order_outputs=False)` consumes them in completion order; the
model serializes them in batch order, one admissible schedule. -/
def IndexService.results (o : Oracles) (fs : FS) (store : List Row) :
    List (List Row × Nat) :=
  (IndexService.batches fs store).map (fun b => EmbedWorker.embed o fs b.1 b.2)

/-- All chunks one run hands to the upsert worker. -/
def runChunks (o : Oracles) (fs : FS) (store : List Row) : List Row :=
  (IndexService.results o fs store).flatMap (·.1)

/-- Model of `IndexService.index`: scan, build, embed, pipe every result into
`UpsertWorker.upsert`, sum the returned chunk counts, and return the final
store next to the summary string `f"Indexed {chunks:,} passages."`. -/
def IndexService.index (o : Oracles) (fs : FS) (store : List Row) :
    List Row × String :=
  let rs := IndexService.results o fs store
  (rs.foldl (fun st r => ChunkStore.upsert st r.1 r.2) store,
   "Indexed " ++ commaFmt (rs.foldl (fun n r => n + r.1.length) 0) ++ " passages.")

/-- The texts of one scanned file that reach the splitter: for an archive its
kept (non-directory, non-blank) entry texts, for a loose file the generic
reader's documents. -/
def keptTexts (o : Oracles) (fs : FS) (nm : String) : List String :=
  if strEndsWith nm ".zip" then
    ((fs.zipNames nm).filter (fun e => !strEndsWith e "/")).filterMap
      (fun en => keepText? (o.readZipEntry nm en))
  else o.readDoc nm

/-- How many chunks a scanned file contributes in total, over all work
units: the sum of the splitter's node counts over its kept texts. -/
def fileYield (o : Oracles) (fs : FS) (nm : String) : Nat :=
  ((keptTexts o fs nm).map (fun t => (o.splitText t).length)).sum

/-- The binding a metadata row contributes to `get_indexed_files`:
`some (source, fingerprint)` when both are present and non-empty. -/
def metaBinding (m : ChunkMeta) : Option (String × String) :=
  match m.source, m.fingerprint with
  | some s, some f => if s.data.isEmpty || f.data.isEmpty then none else some (s, f)
  | _, _ => none

/-- The metadata of the nodes one document yields: one copy of the document's
metadata per splitter chunk. -/
def docNodeMetas (o : Oracles) (d : Doc) : List ChunkMeta :=
  (o.splitText d.text).map (fun _ => d.meta)

/-- The metadata of all chunks one work unit produces. -/
def unitMetas (o : Oracles) (fs : FS) (u : WorkUnit) : List ChunkMeta :=
  (FileParser.parse fs o u).flatMap (docNodeMetas o)

/-- Fuel-driven decimal digit rendering, the recursion of `Nat.toDigitsCore`
with the fuel made explicit: the digits of `n` in order. -/
def decCharsFuel : Nat → Nat → List Char
  | 0, _ => []
  | fuel + 1, n =>
    if n < 10 then [Nat.digitChar n]
    else decCharsFuel fuel (n / 10) ++ [Nat.digitChar (n % 10)]

/-- The decimal digit characters of `n`, most significant first. -/
def decChars (n : Nat) : List Char := decCharsFuel (n + 1) n

/-- The loose-file work units of a build result, in order. -/
def looseUnits (b : List (WorkUnit × Nat)) : List (List String) :=
  b.filterMap (fun p => match p.1 with
    | WorkUnit.files ps => some ps
    | _ => none)

/-- The entry lists of the work units a build result assigns to archive `z`. -/
def zipUnitsFor (b : List (WorkUnit × Nat)) (z : String) : List (List String) :=
  b.filterMap (fun p => match p.1 with
    | WorkUnit.zipEntries z' es => if z' == z then some es else none
    | _ => none)

/-! ### Generic lemmas about the sorting helper -/

theorem insertSorted_perm (le : α → α → Bool) (x : α) :
    ∀ l : List α, (insertSorted le x l).Perm (x :: l)
  | [] => List.Perm.refl _
  | y :: ys => by
    by_cases h : le x y = true
    · simp [insertSorted, h]
    · simp only [insertSorted, h, if_false]
      exact ((insertSorted_perm le x ys).cons y).trans (List.Perm.swap x y ys)

theorem sortBy_perm (le : α → α → Bool) : ∀ l : List α, (sortBy le l).Perm l
  | [] => List.Perm.refl _
  | x :: xs =>
    ((insertSorted_perm le x (sortBy le xs)).trans ((sortBy_perm le xs).cons x))

theorem mem_sortBy {le : α → α → Bool} {a : α} {l : List α} :
    a ∈ sortBy le l ↔ a ∈ l :=
  (sortBy_perm le l).mem_iff

theorem mem_insertSorted {le : α → α → Bool} {a x : α} {l : List α} :
    a ∈ insertSorted le x l ↔ a = x ∨ a ∈ l := by
  rw [(insertSorted_perm le x l).mem_iff, List.mem_cons]

theorem pairwise_insertSorted (le : α → α → Bool)
    (htr : ∀ a b c, le a b = true → le b c = true → le a c = true)
    (hto : ∀ a b, le a b = true ∨ le b a = true) (x : α) :
    ∀ l : List α, l.Pairwise (fun a b => le a b = true) →
      (insertSorted le x l).Pairwise (fun a b => le a b = true)
  | [], _ => by simp [insertSorted]
  | y :: ys, h => by
    rcases List.pairwise_cons.mp h with ⟨hy, hys⟩
    by_cases hxy : le x y = true
    · simp only [insertSorted, hxy, if_true]
      refine List.pairwise_cons.mpr ⟨?_, h⟩
      intro b hb
      rcases List.mem_cons.mp hb with rfl | hb
      · exact hxy
      · exact htr _ _ _ hxy (hy b hb)
    · simp only [insertSorted, hxy, if_false]
      refine List.pairwise_cons.mpr ⟨?_, pairwise_insertSorted le htr hto x ys hys⟩
      intro b hb
      rcases mem_insertSorted.mp hb with rfl | hb
      · rcases hto b y with hh | hh
        · exact absurd hh hxy
        · exact hh
      · exact hy b hb

theorem pairwise_sortBy (le : α → α → Bool)
    (htr : ∀ a b c, le a b = true → le b c = true → le a c = true)
    (hto : ∀ a b, le a b = true ∨ le b a = true) :
    ∀ l : List α, (sortBy le l).Pairwise (fun a b => le a b = true)
  | [] => List.Pairwise.nil
  | x :: xs => pairwise_insertSorted le htr hto x _ (pairwise_sortBy le htr hto xs)

theorem charsLe_trans :
    ∀ a b c : List Char, charsLe a b = true → charsLe b c = true → charsLe a c = true
  | [], _, _, _, _ => rfl
  | _ :: _, [], _, h, _ => absurd h (by simp [charsLe])
  | _ :: _, _ :: _, [], _, h => absurd h (by simp [charsLe])
  | a :: as, b :: bs, c :: cs, h1, h2 => by
    simp only [charsLe] at h1 h2 ⊢
    rcases Nat.lt_trichotomy a.toNat b.toNat with hab | hab | hab
    · rcases Nat.lt_trichotomy b.toNat c.toNat with hbc | hbc | hbc
      · rw [if_pos (by omega)]
      · rw [if_pos (by omega)]
      · rw [if_neg (by omega), if_pos (by omega)] at h2
        exact absurd h2 (by simp)
    · rcases Nat.lt_trichotomy b.toNat c.toNat with hbc | hbc | hbc
      · rw [if_pos (by omega)]
      · rw [if_neg (by omega), if_neg (by omega)] at h1 h2 ⊢
        exact charsLe_trans as bs cs h1 h2
      · rw [if_neg (by omega), if_pos (by omega)] at h2
        exact absurd h2 (by simp)
    · rw [if_neg (by omega), if_pos (by omega)] at h1
      exact absurd h1 (by simp)

theorem charsLe_total : ∀ a b : List Char, charsLe a b = true ∨ charsLe b a = true
  | [], _ => Or.inl rfl
  | _ :: _, [] => Or.inr rfl
  | a :: as, b :: bs => by
    simp only [charsLe]
    rcases Nat.lt_trichotomy a.toNat b.toNat with hab | hab | hab
    · left; rw [if_pos (by omega)]
    · rw [if_neg (by omega), if_neg (by omega), if_neg (by omega), if_neg (by omega)]
      exact charsLe_total as bs
    · right; rw [if_pos (by omega)]

theorem strLe_trans (a b c : String) (h1 : strLe a b = true) (h2 : strLe b c = true) :
    strLe a c = true :=
  charsLe_trans a.data b.data c.data h1 h2

theorem strLe_total (a b : String) : strLe a b = true ∨ strLe b a = true :=
  charsLe_total a.data b.data

/-! ### Generic lemmas about `chunkEvery` and `BatchBuilder.chunk` -/

theorem chunkEveryFuel_congr {size : Nat} (hs : 1 ≤ size) :
    ∀ (f g : Nat) (l : List α), l.length ≤ f → l.length ≤ g →
      chunkEveryFuel size f l = chunkEveryFuel size g l
  | 0, g, l, hf, _ => by
    have : l = [] := List.eq_nil_of_length_eq_zero (Nat.le_zero.mp hf)
    subst this
    cases g <;> rfl
  | f + 1, g, [], _, _ => by cases g <;> rfl
  | f + 1, 0, x :: xs, _, hg => by simp at hg
  | f + 1, g + 1, x :: xs, hf, hg => by
    simp only [chunkEveryFuel]
    have hf' : xs.length + 1 ≤ f + 1 := by simpa using hf
    have hg' : xs.length + 1 ≤ g + 1 := by simpa using hg
    have hdl : ((x :: xs).drop size).length = xs.length + 1 - size := by simp
    congr 1
    exact chunkEveryFuel_congr hs f g _ (by omega) (by omega)

theorem chunkEvery_cons_eq {size : Nat} (hs : 1 ≤ size) (l : List α) (hl : l ≠ []) :
    chunkEvery size l = l.take size :: chunkEvery size (l.drop size) := by
  obtain ⟨x, xs, rfl⟩ := List.exists_cons_of_ne_nil hl
  show chunkEveryFuel size (xs.length + 1) (x :: xs) = _
  simp only [chunkEveryFuel]
  congr 1
  have hdl : ((x :: xs).drop size).length = xs.length + 1 - size := by simp
  exact chunkEveryFuel_congr hs xs.length _ _ (by omega) (Nat.le_refl _)

theorem chunkEvery_flatten_aux {size : Nat} (hs : 1 ≤ size) :
    ∀ (n : Nat) (l : List α), l.length ≤ n → (chunkEvery size l).flatten = l
  | _, [], _ => rfl
  | 0, x :: xs, h => by simp at h
  | n + 1, x :: xs, h => by
    rw [chunkEvery_cons_eq hs _ (by simp)]
    simp only [List.flatten_cons]
    have h' : xs.length + 1 ≤ n + 1 := by simpa using h
    have hdl : ((x :: xs).drop size).length = xs.length + 1 - size := by simp
    rw [chunkEvery_flatten_aux hs n _ (by omega)]
    exact List.take_append_drop size (x :: xs)

theorem chunkEvery_flatten {size : Nat} (hs : 1 ≤ size) (l : List α) :
    (chunkEvery size l).flatten = l :=
  chunkEvery_flatten_aux hs l.length l (Nat.le_refl _)

theorem mem_chunkEveryFuel_length {size : Nat} :
    ∀ (f : Nat) (l : List α) (c : List α), c ∈ chunkEveryFuel size f l → c.length ≤ size
  | 0, _, _, h => by simp [chunkEveryFuel] at h
  | _ + 1, [], _, h => by simp [chunkEveryFuel] at h
  | f + 1, x :: xs, c, h => by
    simp only [chunkEveryFuel, List.mem_cons] at h
    rcases h with rfl | h
    · simp only [List.length_take]
      exact Nat.min_le_left size (x :: xs).length
    · exact mem_chunkEveryFuel_length f _ c h

theorem mem_chunkEvery_length {size : Nat} {l c : List α} (h : c ∈ chunkEvery size l) :
    c.length ≤ size :=
  mem_chunkEveryFuel_length l.length l c h

theorem chunkEvery_length_aux {size : Nat} (hs : 1 ≤ size) :
    ∀ (n : Nat) (l : List α), l.length ≤ n →
      (chunkEvery size l).length = (l.length + size - 1) / size
  | _, [], _ => by
    have h0 : chunkEvery size ([] : List α) = [] := rfl
    rw [h0]
    simp only [List.length_nil, Nat.zero_add]
    rw [eq_comm, Nat.div_eq_zero_iff (by omega)]
    omega
  | 0, x :: xs, h => by simp at h
  | n + 1, x :: xs, h => by
    rw [chunkEvery_cons_eq hs _ (by simp)]
    simp only [List.length_cons]
    have h' : xs.length + 1 ≤ n + 1 := by simpa using h
    have hdl : ((x :: xs).drop size).length = xs.length + 1 - size := by simp
    have haux := chunkEvery_length_aux hs n ((x :: xs).drop size) (by omega)
    rw [haux, hdl]
    rcases le_or_lt (xs.length + 1) size with hle | hle
    · have h1 : xs.length + 1 - size = 0 := by omega
      have h2 : xs.length + 1 + size - 1 = xs.length + size := by omega
      rw [h1, h2, Nat.add_div_right _ (by omega)]
      have h3 : (0 + size - 1) / size = 0 :=
        (Nat.div_eq_zero_iff (by omega)).mpr (by omega)
      have h4 : xs.length / size = 0 :=
        (Nat.div_eq_zero_iff (by omega)).mpr (by omega)
      rw [h3, h4]
    · have h2 : xs.length + 1 + size - 1 = xs.length + size := by omega
      have h3 : xs.length + 1 - size + size - 1 = xs.length + 1 - size - 1 + size := by omega
      have h4 : xs.length = xs.length + 1 - size - 1 + size := by omega
      rw [h2, h3, Nat.add_div_right _ (by omega)]
      conv_rhs => rw [h4, Nat.add_div_right _ (by omega), Nat.add_div_right _ (by omega)]

theorem chunkEvery_length {size : Nat} (hs : 1 ≤ size) (l : List α) :
    (chunkEvery size l).length = (l.length + size - 1) / size :=
  chunkEvery_length_aux hs l.length l (Nat.le_refl _)

theorem ceilDiv_pos {len n : Nat} (hl : 1 ≤ len) (hn : 1 ≤ n) :
    1 ≤ (len + n - 1) / n := by
  rw [Nat.le_div_iff_mul_le (by omega)]
  omega

theorem chunk_flatten {n : Nat} (hn : 1 ≤ n) (l : List α) :
    (BatchBuilder.chunk n l).flatten = l := by
  by_cases h : l = []
  · subst h; rfl
  · have hl : 1 ≤ l.length := List.length_pos.mpr h
    rw [BatchBuilder.chunk, if_neg (by simpa [List.isEmpty_iff] using h)]
    exact chunkEvery_flatten (ceilDiv_pos hl hn) l

theorem mem_of_mem_chunk {n : Nat} (hn : 1 ≤ n) {l c : List α} {x : α}
    (hc : c ∈ BatchBuilder.chunk n l) (hx : x ∈ c) : x ∈ l := by
  rw [← chunk_flatten hn l]
  exact List.mem_flatten.mpr ⟨c, hc, hx⟩

theorem chunk_sizes {n : Nat} {l c : List α} (hc : c ∈ BatchBuilder.chunk n l) :
    c.length ≤ (l.length + n - 1) / n := by
  by_cases h : l = []
  · subst h; simp [BatchBuilder.chunk] at hc
  · rw [BatchBuilder.chunk, if_neg (by simpa [List.isEmpty_iff] using h)] at hc
    exact mem_chunkEvery_length hc

theorem chunk_count_le {n : Nat} (hn : 1 ≤ n) (l : List α) :
    (BatchBuilder.chunk n l).length ≤ n := by
  by_cases h : l = []
  · subst h; simp [BatchBuilder.chunk]
  · have hl : 1 ≤ l.length := List.length_pos.mpr h
    rw [BatchBuilder.chunk, if_neg (by simpa [List.isEmpty_iff] using h)]
    rw [chunkEvery_length (ceilDiv_pos hl hn) l]
    set s := (l.length + n - 1) / n with hs
    have hs1 : 1 ≤ s := ceilDiv_pos hl hn
    have hmod : (l.length + n - 1) % n < n := Nat.mod_lt _ (by omega)
    have hdm : s * n + (l.length + n - 1) % n = l.length + n - 1 := by
      rw [hs, Nat.mul_comm]
      exact Nat.div_add_mod _ _
    have hlen : l.length ≤ s * n := by omega
    rw [Nat.div_le_iff_le_mul_add_pred (by omega)]
    calc l.length + s - 1 ≤ s * n + (s - 1) := by
          have := Nat.mul_le_mul_left s hn
          omega
      _ = s * n + (s - 1) := rfl


/-! ### Lemmas about `get_indexed_files` -/

theorem gifStep_or (init : String → Option String) (m : ChunkMeta) (q : String) :
    gifStep init m q = (gifStep (fun _ => none) m q).or (init q) := by
  cases hs : m.source with
  | none => simp [gifStep, hs]
  | some s =>
    cases hf : m.fingerprint with
    | none => simp [gifStep, hs, hf]
    | some f =>
      simp only [gifStep, hs, hf]
      by_cases he : (s.data.isEmpty || f.data.isEmpty) = true
      · rw [if_pos he, if_pos he]
        simp
      · rw [if_neg he, if_neg he]
        cases hqs : q == s <;> simp [hqs]

theorem gifStep_none_eq (m : ChunkMeta) (q : String) :
    gifStep (fun _ => none) m q
      = (metaBinding m).bind (fun p => if q == p.1 then some p.2 else none) := by
  cases hs : m.source with
  | none => simp [gifStep, metaBinding, hs]
  | some s =>
    cases hf : m.fingerprint with
    | none => simp [gifStep, metaBinding, hs, hf]
    | some f =>
      simp only [gifStep, metaBinding, hs, hf]
      by_cases he : (s.data.isEmpty || f.data.isEmpty) = true
      · rw [if_pos he, if_pos he]
        simp
      · rw [if_neg he, if_neg he]
        by_cases hqs : q = s
        · simp [hqs]
        · have hbq : (q == s) = false := by
            rw [beq_eq_false_iff_ne]
            exact hqs
          simp [hbq, hqs]

theorem gifMetas_go (l : List ChunkMeta) (q : String) :
    ∀ init : String → Option String,
      (l.foldl gifStep init) q = (ChunkStore.gifMetas l q).or (init q) := by
  induction l with
  | nil => intro init; simp [ChunkStore.gifMetas]
  | cons m t ih =>
    intro init
    show (t.foldl gifStep (gifStep init m)) q = _
    rw [ih (gifStep init m)]
    have hrhs : ChunkStore.gifMetas (m :: t) q
        = (ChunkStore.gifMetas t q).or (gifStep (fun _ => none) m q) := by
      show (t.foldl gifStep (gifStep (fun _ => none) m)) q = _
      rw [ih (gifStep (fun _ => none) m)]
    rw [hrhs, gifStep_or init m q, Option.or_assoc]

theorem gifMetas_cons (m : ChunkMeta) (t : List ChunkMeta) (q : String) :
    ChunkStore.gifMetas (m :: t) q
      = (ChunkStore.gifMetas t q).or (gifStep (fun _ => none) m q) := by
  show (t.foldl gifStep (gifStep (fun _ => none) m)) q = _
  rw [gifMetas_go t q (gifStep (fun _ => none) m)]

theorem gifMetas_append (a b : List ChunkMeta) (q : String) :
    ChunkStore.gifMetas (a ++ b) q
      = (ChunkStore.gifMetas b q).or (ChunkStore.gifMetas a q) := by
  show ((a ++ b).foldl gifStep (fun _ => none)) q = _
  rw [List.foldl_append, gifMetas_go b q]
  rfl

theorem getLast?_of_all_eq {l : List α} {a : α} (h : ∀ x ∈ l, x = a) (hne : l ≠ []) :
    l.getLast? = some a := by
  induction l with
  | nil => exact absurd rfl hne
  | cons x xs ih =>
    cases xs with
    | nil => simp [h x (by simp)]
    | cons y ys =>
      rw [List.getLast?_cons_cons]
      exact ih (fun z hz => h z (List.mem_cons_of_mem x hz)) (by simp)

theorem gifMetas_last (l : List ChunkMeta) (q : String) :
    ChunkStore.gifMetas l q
      = (((l.filterMap metaBinding).filter (fun p => p.1 == q)).getLast?).map (·.2) := by
  induction l using List.reverseRecOn with
  | nil => rfl
  | append_singleton t m ih =>
    rw [gifMetas_append t [m] q]
    have hsingle : ChunkStore.gifMetas [m] q
        = (metaBinding m).bind (fun p => if q == p.1 then some p.2 else none) := by
      rw [gifMetas_cons m [] q, gifStep_none_eq]
      have h0 : ChunkStore.gifMetas [] q = none := rfl
      rw [h0, Option.none_or]
    rw [hsingle, List.filterMap_append, List.filter_append, List.getLast?_append, ih]
    cases hb : metaBinding m with
    | none =>
      simp only [List.filterMap_cons, List.filterMap_nil, hb, List.filter_nil,
        List.getLast?_nil, Option.none_bind, Option.none_or, Option.or_none]
    | some p =>
      by_cases hq : q = p.1
      · have hq1 : (q == p.1) = true := by simp [hq]
        have hq2 : (p.1 == q) = true := by simp [hq]
        simp only [List.filterMap_cons, List.filterMap_nil, hb, List.filter_cons,
          List.filter_nil, hq1, hq2, if_true, Option.some_bind]
        rfl
      · have hq1 : (q == p.1) = false := by
          rw [beq_eq_false_iff_ne]
          exact hq
        have hq2 : (p.1 == q) = false := by
          rw [beq_eq_false_iff_ne]
          intro hcon
          exact hq hcon.symm
        simp only [List.filterMap_cons, List.filterMap_nil, hb, List.filter_cons,
          List.filter_nil, hq1, hq2, Option.some_bind, if_false, Bool.false_eq_true,
          List.getLast?_nil, Option.none_or, Option.or_none]

theorem gifMetas_eq_none (l : List ChunkMeta) (q : String)
    (h : ∀ m ∈ l, ∀ f, metaBinding m ≠ some (q, f)) :
    ChunkStore.gifMetas l q = none := by
  rw [gifMetas_last]
  have : (l.filterMap metaBinding).filter (fun p => p.1 == q) = [] := by
    rw [List.filter_eq_nil_iff]
    intro p hp
    rcases List.mem_filterMap.mp hp with ⟨m, hm, hbm⟩
    intro hq
    rw [beq_iff_eq] at hq
    have hqp : (q, p.2) = p := by rw [← hq]
    exact h m hm p.2 (hbm.trans (congrArg some hqp.symm))
  rw [this]
  rfl

theorem gifMetas_eq_some (l : List ChunkMeta) (q : String) (f0 : String)
    (hex : ∃ m ∈ l, metaBinding m = some (q, f0))
    (hall : ∀ m ∈ l, ∀ f, metaBinding m = some (q, f) → f = f0) :
    ChunkStore.gifMetas l q = some f0 := by
  rw [gifMetas_last]
  set fl := (l.filterMap metaBinding).filter (fun p => p.1 == q) with hfl
  have hael : ∀ p ∈ fl, p = (q, f0) := by
    intro p hp
    rcases List.mem_filter.mp hp with ⟨hp1, hp2⟩
    rcases List.mem_filterMap.mp hp1 with ⟨m, hm, hbm⟩
    rw [beq_iff_eq] at hp2
    have hp' : p = (q, p.2) := by
      rw [← hp2]
    have : f0 = p.2 := (hall m hm p.2 (by rw [hbm, hp'])).symm
    rw [hp', ← this]
  have hne : fl ≠ [] := by
    rcases hex with ⟨m, hm, hbm⟩
    intro hcon
    have : (q, f0) ∈ fl := by
      apply List.mem_filter.mpr
      exact ⟨List.mem_filterMap.mpr ⟨m, hm, hbm⟩, by simp⟩
    rw [hcon] at this
    simp at this
  rw [getLast?_of_all_eq hael hne]
  rfl


/-! ### Lemmas about the upsert path -/

theorem collection_upsert_nil (st : List Row) : collection_upsert st [] = st := rfl

theorem collection_upsert_append (st batch : List Row)
    (hfresh : ∀ r ∈ batch, ∀ s ∈ st, r.id ≠ s.id)
    (hnodup : (batch.map (·.id)).Nodup) :
    collection_upsert st batch = st ++ batch := by
  induction batch generalizing st with
  | nil => simp [collection_upsert]
  | cons r rs ih =>
    have hmap : (List.map (·.id) (r :: rs)) = r.id :: rs.map (·.id) := rfl
    rw [hmap] at hnodup
    have hn := List.nodup_cons.mp hnodup
    have hnot : st.any (fun x => x.id == r.id) = false := by
      rw [List.any_eq_false]
      intro x hx
      rw [Bool.not_eq_true, beq_eq_false_iff_ne]
      exact fun hcon => hfresh r (by simp) x hx hcon.symm
    show List.foldl _ (if st.any (fun x => x.id == r.id) = true then _ else st ++ [r]) rs = _
    rw [hnot]
    simp only [Bool.false_eq_true, if_false]
    have hfresh' : ∀ c ∈ rs, ∀ s ∈ st ++ [r], c.id ≠ s.id := by
      intro c hc s hs
      rcases List.mem_append.mp hs with hs | hs
      · exact hfresh c (List.mem_cons_of_mem r hc) s hs
      · rcases List.mem_singleton.mp hs with rfl
        intro hcon
        exact hn.1 (by rw [← hcon]; exact List.mem_map_of_mem (·.id) hc)
    show collection_upsert (st ++ [r]) rs = _
    rw [ih (st ++ [r]) hfresh' hn.2]
    simp

theorem collection_upsert_id_surj (batch : List Row) :
    ∀ (st : List Row), ∀ s ∈ st, ∃ t ∈ collection_upsert st batch, t.id = s.id := by
  induction batch with
  | nil => exact fun st s hs => ⟨s, hs, rfl⟩
  | cons r rs ih =>
    intro st s hs
    show ∃ t ∈ List.foldl _ (if st.any (fun x => x.id == r.id) = true then _ else st ++ [r]) rs, _
    by_cases hany : st.any (fun x => x.id == r.id) = true
    · rw [if_pos hany]
      have hmem : (if s.id == r.id then r else s) ∈ st.map (fun x => if x.id == r.id then r else x) :=
        List.mem_map_of_mem _ hs
      have hid : (if s.id == r.id then r else s).id = s.id := by
        by_cases h : (s.id == r.id) = true
        · rw [if_pos h]
          exact (beq_iff_eq.mp h).symm
        · rw [if_neg h]
      rcases ih _ _ hmem with ⟨t, ht, hid2⟩
      exact ⟨t, ht, hid2.trans hid⟩
    · rw [if_neg hany]
      exact ih (st ++ [r]) s (List.mem_append_left _ hs)

theorem collection_upsert_untouched (batch : List Row) :
    ∀ (st : List Row) (r : Row), r ∈ st → (∀ c ∈ batch, c.id ≠ r.id) →
      r ∈ collection_upsert st batch := by
  induction batch with
  | nil => exact fun st r hr _ => hr
  | cons c cs ih =>
    intro st r hr hne
    show r ∈ List.foldl _ (if st.any (fun x => x.id == c.id) = true then _ else st ++ [c]) cs
    by_cases hany : st.any (fun x => x.id == c.id) = true
    · rw [if_pos hany]
      have himg : (if r.id == c.id then c else r) = r := by
        rw [if_neg]
        rw [Bool.not_eq_true, beq_eq_false_iff_ne]
        exact fun hcon => hne c (by simp) hcon.symm
      refine ih _ r ?_ (fun x hx => hne x (List.mem_cons_of_mem c hx))
      rw [← himg]
      exact List.mem_map_of_mem _ hr
    · rw [if_neg hany]
      exact ih _ r (List.mem_append_left _ hr) (fun x hx => hne x (List.mem_cons_of_mem c hx))

theorem fold_collection_upsert_append :
    ∀ (bs : List (List Row)) (st : List Row),
      (∀ r ∈ bs.flatten, ∀ s ∈ st, r.id ≠ s.id) →
      ((bs.flatten.map (·.id)).Nodup) →
      bs.foldl collection_upsert st = st ++ bs.flatten
  | [], st, _, _ => by simp
  | b :: bs, st, hfresh, hnodup => by
    have hflat : (b :: bs).flatten = b ++ bs.flatten := rfl
    rw [hflat] at hfresh hnodup
    rw [List.map_append, List.nodup_append] at hnodup
    show bs.foldl collection_upsert (collection_upsert st b) = _
    have hb : collection_upsert st b = st ++ b :=
      collection_upsert_append st b
        (fun r hr s hs => hfresh r (List.mem_append_left _ hr) s hs) hnodup.1
    rw [hb, fold_collection_upsert_append bs (st ++ b) ?hf ?hn, hflat, List.append_assoc]
    case hf =>
      intro r hr s hs
      rcases List.mem_append.mp hs with hs | hs
      · exact hfresh r (List.mem_append_right _ hr) s hs
      · intro hcon
        have h1 : s.id ∈ b.map (·.id) := List.mem_map_of_mem (·.id) hs
        have h2 : s.id ∈ (bs.flatten).map (·.id) := by
          rw [← hcon]
          exact List.mem_map_of_mem (·.id) hr
        exact hnodup.2.2 h1 h2
    case hn => exact hnodup.2.1

theorem upsert_batch_pos : 1 ≤ UPSERT_BATCH := by decide

theorem chunkStore_upsert_append (st chunks : List Row) (wid : Nat)
    (hfresh : ∀ r ∈ chunks, ∀ s ∈ st, r.id ≠ s.id)
    (hnodup : (chunks.map (·.id)).Nodup) :
    ChunkStore.upsert st chunks wid = st ++ chunks := by
  by_cases h : chunks.isEmpty
  · rw [ChunkStore.upsert, if_pos h]
    rw [List.isEmpty_iff] at h
    rw [h, List.append_nil]
  · rw [ChunkStore.upsert, if_neg h]
    have hfl : (chunkEvery UPSERT_BATCH chunks).flatten = chunks :=
      chunkEvery_flatten upsert_batch_pos chunks
    rw [fold_collection_upsert_append _ st (by rw [hfl]; exact hfresh) (by rw [hfl]; exact hnodup),
      hfl]

theorem chunkStore_upsert_id_surj (st chunks : List Row) (wid : Nat) :
    ∀ s ∈ st, ∃ t ∈ ChunkStore.upsert st chunks wid, t.id = s.id := by
  by_cases h : chunks.isEmpty
  · rw [ChunkStore.upsert, if_pos h]
    exact fun s hs => ⟨s, hs, rfl⟩
  · rw [ChunkStore.upsert, if_neg h]
    generalize chunkEvery UPSERT_BATCH chunks = bs
    induction bs generalizing st with
    | nil => exact fun s hs => ⟨s, hs, rfl⟩
    | cons b bs ih =>
      intro s hs
      show ∃ t ∈ bs.foldl collection_upsert (collection_upsert st b), _
      rcases collection_upsert_id_surj b st s hs with ⟨t, ht, hid⟩
      rcases ih (collection_upsert st b) t ht with ⟨t2, ht2, hid2⟩
      exact ⟨t2, ht2, hid2.trans hid⟩

theorem chunkStore_upsert_untouched (st chunks : List Row) (wid : Nat) (r : Row)
    (hr : r ∈ st) (hne : ∀ c ∈ chunks, c.id ≠ r.id) :
    r ∈ ChunkStore.upsert st chunks wid := by
  by_cases h : chunks.isEmpty
  · rw [ChunkStore.upsert, if_pos h]
    exact hr
  · rw [ChunkStore.upsert, if_neg h]
    have hne' : ∀ b ∈ chunkEvery UPSERT_BATCH chunks, ∀ c ∈ b, c.id ≠ r.id := by
      intro b hb c hc
      refine hne c ?_
      rw [← chunkEvery_flatten upsert_batch_pos chunks]
      exact List.mem_flatten.mpr ⟨b, hb, hc⟩
    generalize hbs : chunkEvery UPSERT_BATCH chunks = bs
    rw [hbs] at hne'
    clear hbs
    induction bs generalizing st with
    | nil => exact hr
    | cons b bs ih =>
      show r ∈ bs.foldl collection_upsert (collection_upsert st b)
      exact ih (collection_upsert st b)
        (collection_upsert_untouched b st r hr (fun c hc => hne' b (by simp) c hc))
        (fun b' hb' c hc => hne' b' (List.mem_cons_of_mem b hb') c hc)

theorem fold_upsert_append :
    ∀ (rs : List (List Row × Nat)) (st : List Row),
      (∀ r ∈ rs.flatMap (·.1), ∀ s ∈ st, r.id ≠ s.id) →
      (((rs.flatMap (·.1)).map (·.id)).Nodup) →
      rs.foldl (fun acc r => ChunkStore.upsert acc r.1 r.2) st = st ++ rs.flatMap (·.1)
  | [], st, _, _ => by simp
  | p :: rs, st, hfresh, hnodup => by
    have hflat : ((p :: rs).flatMap (·.1)) = p.1 ++ rs.flatMap (·.1) := rfl
    rw [hflat] at hfresh hnodup
    rw [List.map_append, List.nodup_append] at hnodup
    show rs.foldl _ (ChunkStore.upsert st p.1 p.2) = _
    have hp : ChunkStore.upsert st p.1 p.2 = st ++ p.1 :=
      chunkStore_upsert_append st p.1 p.2
        (fun r hr s hs => hfresh r (List.mem_append_left _ hr) s hs) hnodup.1
    rw [hp, fold_upsert_append rs (st ++ p.1) ?hf ?hn, hflat, List.append_assoc]
    case hf =>
      intro r hr s hs
      rcases List.mem_append.mp hs with hs | hs
      · exact hfresh r (List.mem_append_right _ hr) s hs
      · intro hcon
        have h1 : s.id ∈ p.1.map (·.id) := List.mem_map_of_mem (·.id) hs
        have h2 : s.id ∈ (rs.flatMap (·.1)).map (·.id) := by
          rw [← hcon]
          exact List.mem_map_of_mem (·.id) hr
        exact hnodup.2.2 h1 h2
    case hn => exact hnodup.2.1

theorem index_store_append (o : Oracles) (fs : FS) (store : List Row)
    (hfresh : ∀ r ∈ runChunks o fs store, ∀ s ∈ store, r.id ≠ s.id)
    (hnodup : ((runChunks o fs store).map (·.id)).Nodup) :
    (IndexService.index o fs store).1 = store ++ runChunks o fs store :=
  fold_upsert_append (IndexService.results o fs store) store hfresh hnodup


/-! ### Lemmas about the embed worker -/

theorem enum_map_comp (l : List α) (g : α → β) :
    l.enum.map (fun p => g p.2) = l.map g := by
  calc l.enum.map (fun p => g p.2) = (l.enum.map Prod.snd).map g := by
        rw [List.map_map]
        rfl
    _ = l.map g := by rw [List.enum_map_snd]

theorem mkRows_proj :
    ∀ (nodes : List Node) (embs : List (List Int)) (texts : List String),
      embs.length = nodes.length → texts.length = nodes.length →
      (mkRows nodes embs texts).map (·.id) = nodes.map (·.id) ∧
      (mkRows nodes embs texts).map (·.vec) = embs ∧
      (mkRows nodes embs texts).map (·.text) = texts ∧
      (mkRows nodes embs texts).map (·.meta) = nodes.map (·.meta) ∧
      (mkRows nodes embs texts).length = nodes.length
  | [], embs, texts, h1, h2 => by
    have he : embs = [] := List.eq_nil_of_length_eq_zero h1
    have ht : texts = [] := List.eq_nil_of_length_eq_zero h2
    subst he ht
    simp [mkRows]
  | n :: ns, [], texts, h1, h2 => by simp at h1
  | n :: ns, e :: es, [], h1, h2 => by simp at h2
  | n :: ns, e :: es, t :: ts, h1, h2 => by
    obtain ⟨i1, i2, i3, i4, i5⟩ := mkRows_proj ns es ts (by simpa using h1) (by simpa using h2)
    refine ⟨?_, ?_, ?_, ?_, ?_⟩ <;>
      simp only [mkRows, List.zip_cons_cons, List.map_cons, List.length_cons] at * <;>
        simp [i1, i2, i3, i4, i5]

theorem embedTexts_length (bsz : Nat) (tei : List String → List (List Int))
    (texts : List String) (hb : 1 ≤ bsz) (ht : ∀ b, (tei b).length = b.length) :
    (embedTexts bsz tei texts).length = texts.length := by
  rw [embedTexts, List.length_flatten, List.map_map]
  have hcong : (chunkEvery bsz texts).map (List.length ∘ tei)
      = (chunkEvery bsz texts).map List.length :=
    List.map_congr_left (fun b _ => ht b)
  rw [hcong, ← List.length_flatten, chunkEvery_flatten hb]

theorem getNodes_meta (o : Oracles) (wid : Nat) (docs : List Doc) :
    (getNodes o wid docs).map (·.meta) = docs.flatMap (docNodeMetas o) := by
  rw [getNodes, List.map_map]
  have h1 : ((docs.flatMap (fun d => (o.splitText d.text).map (fun t => (t, d.meta)))).enum).map
      (fun p => ((p.2 : String × ChunkMeta)).2)
      = (docs.flatMap (fun d => (o.splitText d.text).map (fun t => (t, d.meta)))).map (·.2) :=
    enum_map_comp _ _
  show ((docs.flatMap (fun d => (o.splitText d.text).map (fun t => (t, d.meta)))).enum).map
      (fun p => p.2.2) = _
  rw [h1, List.map_flatMap]
  refine List.flatMap_congr ?_
  intro d _
  rw [List.map_map]
  rfl

theorem getNodes_text (o : Oracles) (wid : Nat) (docs : List Doc) :
    (getNodes o wid docs).map (·.text) = docs.flatMap (fun d => o.splitText d.text) := by
  rw [getNodes, List.map_map]
  have h1 : ((docs.flatMap (fun d => (o.splitText d.text).map (fun t => (t, d.meta)))).enum).map
      (fun p => ((p.2 : String × ChunkMeta)).1)
      = (docs.flatMap (fun d => (o.splitText d.text).map (fun t => (t, d.meta)))).map (·.1) :=
    enum_map_comp _ _
  show ((docs.flatMap (fun d => (o.splitText d.text).map (fun t => (t, d.meta)))).enum).map
      (fun p => p.2.1) = _
  rw [h1, List.map_flatMap]
  refine List.flatMap_congr ?_
  intro d _
  rw [List.map_map]
  exact List.map_id' _

theorem chunkAndEmbed_proj (o : Oracles) (nodes : List Node)
    (hb : 1 ≤ o.teiBatchSize) (ht : ∀ b, (o.tei b).length = b.length) :
    (chunkAndEmbed o nodes).map (·.id) = nodes.map (·.id) ∧
    (chunkAndEmbed o nodes).map (·.vec) = embedTexts o.teiBatchSize o.tei (nodes.map (·.text)) ∧
    (chunkAndEmbed o nodes).map (·.text) = nodes.map (·.text) ∧
    (chunkAndEmbed o nodes).map (·.meta) = nodes.map (·.meta) ∧
    (chunkAndEmbed o nodes).length = nodes.length := by
  by_cases h : nodes.isEmpty
  · rw [List.isEmpty_iff] at h
    subst h
    refine ⟨rfl, ?_, rfl, rfl, rfl⟩
    have : embedTexts o.teiBatchSize o.tei (([] : List Node).map (·.text)) = [] := rfl
    rw [this]
    rfl
  · rw [chunkAndEmbed, if_neg h]
    have hlen1 : (embedTexts o.teiBatchSize o.tei (nodes.map (·.text))).length = nodes.length := by
      rw [embedTexts_length _ _ _ hb ht, List.length_map]
    have hlen2 : (nodes.map (·.text)).length = nodes.length := List.length_map _ _
    exact mkRows_proj nodes _ _ hlen1 hlen2

theorem embed_meta (o : Oracles) (fs : FS) (u : WorkUnit) (wid : Nat)
    (hb : 1 ≤ o.teiBatchSize) (ht : ∀ b, (o.tei b).length = b.length) :
    ((EmbedWorker.embed o fs u wid).1).map (·.meta) = unitMetas o fs u := by
  show (chunkAndEmbed o (getNodes o wid (FileParser.parse fs o u))).map (·.meta) = _
  rw [(chunkAndEmbed_proj o _ hb ht).2.2.2.1, getNodes_meta]
  rfl


/-! ### Decimal rendering and fingerprint injectivity -/

theorem decCharsFuel_congr :
    ∀ (f g n : Nat), n < f → n < g → decCharsFuel f n = decCharsFuel g n
  | 0, _, n, hf, _ => absurd hf (by omega)
  | _ + 1, 0, n, _, hg => absurd hg (by omega)
  | f + 1, g + 1, n, hf, hg => by
    simp only [decCharsFuel]
    by_cases h : n < 10
    · simp [h]
    · simp only [h, if_false]
      have h10 : n / 10 < n := Nat.div_lt_self (by omega) (by omega)
      rw [decCharsFuel_congr f g (n / 10) (by omega) (by omega)]

theorem decChars_lt {n : Nat} (h : n < 10) : decChars n = [Nat.digitChar n] := by
  simp [decChars, decCharsFuel, h]

theorem decChars_ge {n : Nat} (h : ¬n < 10) :
    decChars n = decChars (n / 10) ++ [Nat.digitChar (n % 10)] := by
  show decCharsFuel (n + 1) n = _
  simp only [decCharsFuel, h, if_false]
  have h10 : n / 10 < n := Nat.div_lt_self (by omega) (by omega)
  rw [decCharsFuel_congr n (n / 10 + 1) (n / 10) (by omega) (by omega)]
  rfl

theorem toDigitsCore_eq_decChars :
    ∀ (fuel n : Nat) (ds : List Char), n < fuel →
      Nat.toDigitsCore 10 fuel n ds = decChars n ++ ds
  | 0, n, _, h => absurd h (by omega)
  | fuel + 1, n, ds, h => by
    simp only [Nat.toDigitsCore]
    by_cases h10 : n / 10 = 0
    · have hn : n < 10 := (Nat.div_eq_zero_iff (by omega)).mp h10
      rw [if_pos h10, decChars_lt hn, Nat.mod_eq_of_lt hn]
      rfl
    · rw [if_neg h10]
      have hn10 : ¬n < 10 := by
        intro hc
        exact h10 ((Nat.div_eq_zero_iff (by omega)).mpr hc)
      have hlt : n / 10 < fuel := by
        have hdn : n / 10 < n := Nat.div_lt_self (by omega) (by omega)
        omega
      rw [toDigitsCore_eq_decChars fuel (n / 10) (Nat.digitChar (n % 10) :: ds) hlt,
        decChars_ge hn10, List.append_assoc]
      rfl

theorem toString_nat_data (n : Nat) : (toString n).data = decChars n := by
  show (List.asString (Nat.toDigitsCore 10 (n + 1) n [])).data = decChars n
  rw [toDigitsCore_eq_decChars (n + 1) n [] (by omega)]
  show decChars n ++ [] = decChars n
  exact List.append_nil _

theorem digitChar_ne_colon : ∀ d, d < 10 → Nat.digitChar d ≠ ':' := by decide

theorem digitChar_inj10 : ∀ a, a < 10 → ∀ b, b < 10 →
    Nat.digitChar a = Nat.digitChar b → a = b := by decide

theorem decChars_ne_nil (n : Nat) : decChars n ≠ [] := by
  by_cases h : n < 10
  · rw [decChars_lt h]
    simp
  · rw [decChars_ge h]
    simp

theorem decChars_no_colon (n : Nat) : ∀ c ∈ decChars n, c ≠ ':' := by
  induction n using Nat.strong_induction_on with
  | _ n ih =>
    by_cases h : n < 10
    · rw [decChars_lt h]
      intro c hc
      rcases List.mem_singleton.mp hc with rfl
      exact digitChar_ne_colon n h
    · rw [decChars_ge h]
      intro c hc
      rcases List.mem_append.mp hc with hc | hc
      · exact ih (n / 10) (Nat.div_lt_self (by omega) (by omega)) c hc
      · rcases List.mem_singleton.mp hc with rfl
        exact digitChar_ne_colon (n % 10) (Nat.mod_lt _ (by omega))

theorem decChars_inj (m : Nat) : ∀ n : Nat, decChars m = decChars n → m = n := by
  induction m using Nat.strong_induction_on with
  | _ m ih =>
    intro n h
    by_cases hm : m < 10 <;> by_cases hn : n < 10
    · rw [decChars_lt hm, decChars_lt hn] at h
      exact digitChar_inj10 m hm n hn (List.singleton_inj.mp h)
    · rw [decChars_lt hm, decChars_ge hn] at h
      have hlen := congrArg List.length h
      simp only [List.length_singleton, List.length_append] at hlen
      have := List.length_pos.mpr (decChars_ne_nil (n / 10))
      omega
    · rw [decChars_ge hm, decChars_lt hn] at h
      have hlen := congrArg List.length h
      simp only [List.length_singleton, List.length_append] at hlen
      have := List.length_pos.mpr (decChars_ne_nil (m / 10))
      omega
    · rw [decChars_ge hm, decChars_ge hn] at h
      obtain ⟨h1, h2⟩ := List.append_inj' h (by simp)
      have hdiv : m / 10 = n / 10 :=
        ih (m / 10) (Nat.div_lt_self (by omega) (by omega)) (n / 10) h1
      have hmod : m % 10 = n % 10 :=
        digitChar_inj10 (m % 10) (Nat.mod_lt _ (by omega)) (n % 10) (Nat.mod_lt _ (by omega))
          (List.singleton_inj.mp h2)
      omega

theorem append_colon_inj :
    ∀ (as bs as' bs' : List Char), (∀ c ∈ as, c ≠ ':') → (∀ c ∈ as', c ≠ ':') →
      as ++ ':' :: bs = as' ++ ':' :: bs' → as = as' ∧ bs = bs'
  | [], bs, [], bs', _, _, h => ⟨rfl, by simpa using h⟩
  | [], bs, a' :: as', bs', _, h2, h => by
    have hh : ':' = a' := by
      have := congrArg (fun l => l.head?) h
      simpa using this
    exact absurd hh.symm (h2 a' (by simp))
  | a :: as, bs, [], bs', h1, _, h => by
    have hh : a = ':' := by
      have := congrArg (fun l => l.head?) h
      simpa using this
    exact absurd hh (h1 a (by simp))
  | a :: as, bs, a' :: as', bs', h1, h2, h => by
    have hh : a = a' := by
      have := congrArg (fun l => l.head?) h
      simpa using this
    have ht : as ++ ':' :: bs = as' ++ ':' :: bs' := by
      have := congrArg List.tail h
      simpa using this
    obtain ⟨e1, e2⟩ := append_colon_inj as bs as' bs'
      (fun c hc => h1 c (List.mem_cons_of_mem a hc))
      (fun c hc => h2 c (List.mem_cons_of_mem a' hc)) ht
    exact ⟨by rw [hh, e1], e2⟩

theorem fingerprintOf_data (e : FileEntry) :
    (fingerprintOf e).data = decChars e.mtime_ns ++ ':' :: decChars e.size := by
  rw [fingerprintOf, String.data_append, String.data_append, toString_nat_data,
    toString_nat_data, List.append_assoc]
  rfl

theorem fingerprintOf_eq_iff (e1 e2 : FileEntry) :
    fingerprintOf e1 = fingerprintOf e2 ↔
      e1.mtime_ns = e2.mtime_ns ∧ e1.size = e2.size := by
  constructor
  · intro h
    have hd := congrArg String.data h
    rw [fingerprintOf_data, fingerprintOf_data] at hd
    obtain ⟨h1, h2⟩ := append_colon_inj _ _ _ _
      (decChars_no_colon e1.mtime_ns) (decChars_no_colon e2.mtime_ns) hd
    exact ⟨decChars_inj _ _ h1, decChars_inj _ _ h2⟩
  · rintro ⟨h1, h2⟩
    rw [fingerprintOf, fingerprintOf, h1, h2]

theorem fingerprintOf_ne_empty (e : FileEntry) : (fingerprintOf e).data ≠ [] := by
  rw [fingerprintOf_data]
  intro h
  have := congrArg List.length h
  simp only [List.length_append, List.length_cons, List.length_nil] at this
  omega


/-! ### Scanner lemmas -/

theorem scan_sorted (fs : FS) (indexed : String → Option String) :
    (Scanner.scan fs indexed).Pairwise (fun a b => strLe a b = true) := by
  cases hdir : fs.docsDir with
  | none => simp [Scanner.scan, hdir]
  | some es =>
    simp only [Scanner.scan, hdir]
    refine List.Pairwise.map _ (fun a b h => h) ?_
    refine List.Pairwise.filter _ ?_
    refine pairwise_sortBy _ ?_ ?_ _
    · intro a b c hab hbc
      exact strLe_trans a.name b.name c.name hab hbc
    · intro a b
      exact strLe_total a.name b.name

theorem scan_mem_iff (fs : FS) (es : List FileEntry) (indexed : String → Option String)
    (hdir : fs.docsDir = some es) (nm : String) :
    nm ∈ Scanner.scan fs indexed ↔
      ∃ e ∈ es, e.isFile = true ∧ e.name = nm ∧ indexed nm ≠ some (fingerprintOf e) := by
  simp only [Scanner.scan, hdir]
  constructor
  · intro h
    rcases List.mem_map.mp h with ⟨e, he, hname⟩
    rcases List.mem_filter.mp he with ⟨hsorted, hpred⟩
    rcases List.mem_filter.mp (mem_sortBy.mp hsorted) with ⟨hes, hfile⟩
    refine ⟨e, hes, hfile, hname, ?_⟩
    rw [← hname]
    exact of_decide_eq_true hpred
  · rintro ⟨e, hes, hfile, hname, hne⟩
    refine List.mem_map.mpr ⟨e, ?_, hname⟩
    refine List.mem_filter.mpr ⟨mem_sortBy.mpr (List.mem_filter.mpr ⟨hes, hfile⟩), ?_⟩
    rw [decide_eq_true_iff, hname]
    exact hne

/-! ### BatchBuilder lemmas -/

theorem filterMap_swap_enum (l : List WorkUnit) (g : WorkUnit × Nat → Option β)
    (g' : WorkUnit → Option β) (hg : ∀ u i, g (u, i) = g' u) :
    (l.enum.map (fun p => (p.2, p.1))).filterMap g = l.filterMap g' := by
  rw [List.filterMap_map]
  have h1 : l.enum.filterMap (g ∘ fun p => (p.2, p.1)) = l.enum.filterMap (fun p => g' p.2) := by
    refine List.filterMap_congr ?_
    intro p _
    exact hg p.2 p.1
  rw [h1]
  have h2 : List.filterMap g' (l.enum.map Prod.snd) = l.enum.filterMap (g' ∘ Prod.snd) :=
    List.filterMap_map Prod.snd g' l.enum
  rw [List.enum_map_snd] at h2
  have h3 : l.enum.filterMap (fun p => g' p.2) = l.enum.filterMap (g' ∘ Prod.snd) := rfl
  rw [h3, ← h2]

theorem filterMap_flatMap (l : List α) (g : α → List β) (f : β → Option γ) :
    (l.flatMap g).filterMap f = l.flatMap (fun a => (g a).filterMap f) := by
  induction l with
  | nil => rfl
  | cons a t ih =>
    simp only [List.flatMap_cons, List.filterMap_append, ih]

theorem flatMap_single {l : List α} (hnd : l.Nodup) {z : α} (hz : z ∈ l)
    (k : α → List β) (hk : ∀ p ∈ l, p ≠ z → k p = []) : l.flatMap k = k z := by
  induction l with
  | nil => simp at hz
  | cons a t ih =>
    rcases List.nodup_cons.mp hnd with ⟨hna, hnt⟩
    rcases List.mem_cons.mp hz with heq | hz
    · subst heq
      have ht : t.flatMap k = [] := by
        rw [List.flatMap_eq_nil_iff]
        intro p hp
        refine hk p (List.mem_cons_of_mem z hp) ?_
        intro hcon
        rw [hcon] at hp
        exact hna hp
      rw [List.flatMap_cons, ht, List.append_nil]
    · have ha : k a = [] := by
        refine hk a (by simp) ?_
        intro hcon
        rw [hcon] at hna
        exact hna hz
      rw [List.flatMap_cons, ha, List.nil_append]
      exact ih hnt hz (fun p hp hne => hk p (List.mem_cons_of_mem a hp) hne)

theorem looseUnits_build (n : Nat) (zipfs : String → List String) (files : List String) :
    looseUnits (BatchBuilder.build n zipfs files)
      = BatchBuilder.chunk n (files.filter (fun f => !strEndsWith f ".zip")) := by
  rw [looseUnits, BatchBuilder.build]
  rw [filterMap_swap_enum _ _ (fun u => match u with
    | WorkUnit.files ps => some ps
    | _ => none) (fun u i => rfl)]
  rw [List.filterMap_append]
  have h1 : (BatchBuilder.split_files n files).filterMap (fun u => match u with
      | WorkUnit.files ps => some ps
      | _ => none) = BatchBuilder.chunk n (files.filter (fun f => !strEndsWith f ".zip")) := by
    rw [BatchBuilder.split_files, List.filterMap_map]
    have hc : ((fun u => match u with
        | WorkUnit.files ps => some ps
        | _ => none) ∘ WorkUnit.files) = fun ps : List String => some ps := rfl
    rw [hc, List.filterMap_some]
  have h2 : (BatchBuilder.split_zips n zipfs files).filterMap (fun u => match u with
      | WorkUnit.files ps => some ps
      | _ => none) = [] := by
    rw [List.filterMap_eq_nil_iff]
    intro u hu
    rcases List.mem_flatMap.mp hu with ⟨p, hp, hup⟩
    by_cases hz : strEndsWith p ".zip" = true
    · rw [if_pos hz] at hup
      rcases List.mem_map.mp hup with ⟨es, hes, rfl⟩
      rfl
    · rw [if_neg hz] at hup
      simp at hup
  rw [h1, h2, List.append_nil]

theorem zipUnitsFor_build (n : Nat) (zipfs : String → List String) (files : List String)
    (hnd : files.Nodup) (z : String) (hz : z ∈ files) (hzip : strEndsWith z ".zip" = true) :
    zipUnitsFor (BatchBuilder.build n zipfs files) z
      = BatchBuilder.chunk n ((zipfs z).filter (fun e => !strEndsWith e "/")) := by
  rw [zipUnitsFor, BatchBuilder.build]
  rw [filterMap_swap_enum _ _ (fun u => match u with
    | WorkUnit.zipEntries z' es => if z' == z then some es else none
    | _ => none) (fun u i => rfl)]
  rw [List.filterMap_append]
  have h1 : (BatchBuilder.split_files n files).filterMap (fun u => match u with
      | WorkUnit.zipEntries z' es => if z' == z then some es else none
      | _ => none) = [] := by
    rw [List.filterMap_eq_nil_iff]
    intro u hu
    rw [BatchBuilder.split_files] at hu
    rcases List.mem_map.mp hu with ⟨ps, hps, rfl⟩
    rfl
  have h2 : (BatchBuilder.split_zips n zipfs files).filterMap (fun u => match u with
      | WorkUnit.zipEntries z' es => if z' == z then some es else none
      | _ => none) = BatchBuilder.chunk n ((zipfs z).filter (fun e => !strEndsWith e "/")) := by
    rw [BatchBuilder.split_zips, filterMap_flatMap]
    rw [flatMap_single hnd hz _ ?hother]
    case hother =>
      intro p hp hne
      by_cases hpz : strEndsWith p ".zip" = true
      · rw [if_pos hpz, List.filterMap_map]
        rw [List.filterMap_eq_nil_iff]
        intro es hes
        show ((if p == z then some es else none) : Option (List String)) = none
        rw [if_neg]
        rw [Bool.not_eq_true, beq_eq_false_iff_ne]
        exact hne
      · rw [if_neg hpz]
        rfl
    rw [if_pos hzip, List.filterMap_map]
    have hc : ((fun u => match u with
          | WorkUnit.zipEntries z' es => if z' == z then some es else none
          | _ => none) ∘ WorkUnit.zipEntries z)
        = fun es : List String => if z == z then some es else none := rfl
    rw [hc]
    have hzz : (z == z) = true := beq_self_eq_true z
    simp only [hzz, if_true]
    rw [List.filterMap_some]
  rw [h1, h2, List.nil_append]


theorem build_worker_ids (n : Nat) (zipfs : String → List String) (files : List String) :
    (BatchBuilder.build n zipfs files).map Prod.snd
      = List.range (BatchBuilder.build n zipfs files).length := by
  rw [BatchBuilder.build, List.map_map, List.length_map, List.enum_length]
  have h : (Prod.snd ∘ fun p : Nat × WorkUnit => (p.2, p.1)) = Prod.fst := rfl
  rw [h, List.enum_map_fst]

theorem gifMetas_filter (l : List ChunkMeta) (q : String) :
    ChunkStore.gifMetas (l.filter (fun m => (metaBinding m).isSome)) q
      = ChunkStore.gifMetas l q := by
  induction l with
  | nil => rfl
  | cons m t ih =>
    rw [gifMetas_cons m t q]
    cases hb : metaBinding m with
    | none =>
      have hf : (m :: t).filter (fun m => (metaBinding m).isSome)
          = t.filter (fun m => (metaBinding m).isSome) := by
        rw [List.filter_cons]
        simp [hb]
      rw [hf, ih, gifStep_none_eq, hb]
      simp
    | some p =>
      have hf : (m :: t).filter (fun m => (metaBinding m).isSome)
          = m :: t.filter (fun m => (metaBinding m).isSome) := by
        rw [List.filter_cons]
        simp [hb]
      rw [hf, gifMetas_cons m _ q, ih]

/-! ### The claims -/

/-- C2: for every docs directory state and indexed map, `Scanner.scan`
returns exactly the regular files whose fingerprint differs from the indexed
one (files absent from the map included, non-files skipped), ordered
lexicographically by file name. -/
theorem scanner_scan_exact (fs : FS) (es : List FileEntry) (indexed : String → Option String)
    (hdir : fs.docsDir = some es) :
    (Scanner.scan fs indexed).Pairwise (fun a b => strLe a b = true) ∧
    ∀ nm : String, (nm ∈ Scanner.scan fs indexed ↔
      ∃ e ∈ es, e.isFile = true ∧ e.name = nm ∧ indexed nm ≠ some (fingerprintOf e)) :=
  ⟨scan_sorted fs indexed, fun nm => scan_mem_iff fs es indexed hdir nm⟩

/-- Witness for C2 at a concrete directory: one changed file, one unchanged
file, one non-file entry; the scan returns exactly the changed file. -/
theorem scanner_scan_exact_witness :
    (FS.mk (some [FileEntry.mk "b.txt" true 2 5 "hello", FileEntry.mk "a.txt" true 1 3 "abc",
        FileEntry.mk "sub" false 0 0 ""]) (fun _ => [])).docsDir
      = some [FileEntry.mk "b.txt" true 2 5 "hello", FileEntry.mk "a.txt" true 1 3 "abc",
        FileEntry.mk "sub" false 0 0 ""] ∧
    Scanner.scan
        (FS.mk (some [FileEntry.mk "b.txt" true 2 5 "hello", FileEntry.mk "a.txt" true 1 3 "abc",
          FileEntry.mk "sub" false 0 0 ""]) (fun _ => []))
        (fun nm => if nm = "b.txt" then some "2:5" else none) = ["a.txt"] ∧
    ((Scanner.scan
        (FS.mk (some [FileEntry.mk "b.txt" true 2 5 "hello", FileEntry.mk "a.txt" true 1 3 "abc",
          FileEntry.mk "sub" false 0 0 ""]) (fun _ => []))
        (fun nm => if nm = "b.txt" then some "2:5" else none)).Pairwise
          (fun a b => strLe a b = true) ∧
      ∀ nm : String, (nm ∈ Scanner.scan
          (FS.mk (some [FileEntry.mk "b.txt" true 2 5 "hello", FileEntry.mk "a.txt" true 1 3 "abc",
            FileEntry.mk "sub" false 0 0 ""]) (fun _ => []))
          (fun nm => if nm = "b.txt" then some "2:5" else none) ↔
        ∃ e ∈ [FileEntry.mk "b.txt" true 2 5 "hello", FileEntry.mk "a.txt" true 1 3 "abc",
            FileEntry.mk "sub" false 0 0 ""], e.isFile = true ∧ e.name = nm ∧
          (fun nm => if nm = "b.txt" then some "2:5" else none) nm ≠ some (fingerprintOf e))) :=
  ⟨rfl, by decide, scanner_scan_exact _ _ _ rfl⟩

/-- C4: `BatchBuilder.build` partitions the non-archive files into at most
`W` groups of at most `⌈N/W⌉` paths, and each archive's non-directory
entries likewise; every loose file and every archive entry is covered
exactly once, and worker ids are assigned densely from 0. -/
theorem batch_builder_partitions (n : Nat) (zipfs : String → List String) (files : List String)
    (hn : 1 ≤ n) (hnd : files.Nodup) :
    ((looseUnits (BatchBuilder.build n zipfs files)).flatten
        = files.filter (fun f => !strEndsWith f ".zip")) ∧
    ((looseUnits (BatchBuilder.build n zipfs files)).length ≤ n) ∧
    (∀ ps ∈ looseUnits (BatchBuilder.build n zipfs files),
      ps.length ≤ ((files.filter (fun f => !strEndsWith f ".zip")).length + n - 1) / n) ∧
    (∀ z ∈ files, strEndsWith z ".zip" = true →
      (zipUnitsFor (BatchBuilder.build n zipfs files) z).flatten
          = (zipfs z).filter (fun e => !strEndsWith e "/") ∧
      (zipUnitsFor (BatchBuilder.build n zipfs files) z).length ≤ n ∧
      ∀ es ∈ zipUnitsFor (BatchBuilder.build n zipfs files) z,
        es.length ≤ (((zipfs z).filter (fun e => !strEndsWith e "/")).length + n - 1) / n) ∧
    ((BatchBuilder.build n zipfs files).map Prod.snd
        = List.range (BatchBuilder.build n zipfs files).length) := by
  refine ⟨?_, ?_, ?_, ?_, build_worker_ids n zipfs files⟩
  · rw [looseUnits_build]
    exact chunk_flatten hn _
  · rw [looseUnits_build]
    exact chunk_count_le hn _
  · rw [looseUnits_build]
    intro ps hps
    exact chunk_sizes hps
  · intro z hzf hzip
    rw [zipUnitsFor_build n zipfs files hnd z hzf hzip]
    exact ⟨chunk_flatten hn _, chunk_count_le hn _, fun es hes => chunk_sizes hes⟩

/-- Witness for C4 at the spec's S3 scenario: an archive with 100 entries
and `W = 8` yields 8 work units with entry counts 13,13,13,13,13,13,13,9. -/
theorem batch_builder_partitions_witness :
    1 ≤ 8 ∧ (["a.zip"] : List String).Nodup ∧
    ((zipUnitsFor
        (BatchBuilder.build 8 (fun _ => (List.range 100).map (fun i => toString i)) ["a.zip"])
        "a.zip").map List.length = [13, 13, 13, 13, 13, 13, 13, 9]) ∧
    (((looseUnits (BatchBuilder.build 8 (fun _ => (List.range 100).map (fun i => toString i))
          ["a.zip"])).flatten
        = (["a.zip"] : List String).filter (fun f => !strEndsWith f ".zip")) ∧
      ((looseUnits (BatchBuilder.build 8 (fun _ => (List.range 100).map (fun i => toString i))
          ["a.zip"])).length ≤ 8) ∧
      (∀ ps ∈ looseUnits (BatchBuilder.build 8
          (fun _ => (List.range 100).map (fun i => toString i)) ["a.zip"]),
        ps.length ≤ (((["a.zip"] : List String).filter
          (fun f => !strEndsWith f ".zip")).length + 8 - 1) / 8) ∧
      (∀ z ∈ (["a.zip"] : List String), strEndsWith z ".zip" = true →
        (zipUnitsFor (BatchBuilder.build 8
            (fun _ => (List.range 100).map (fun i => toString i)) ["a.zip"]) z).flatten
            = ((fun _ => (List.range 100).map (fun i => toString i)) z).filter
              (fun e => !strEndsWith e "/") ∧
        (zipUnitsFor (BatchBuilder.build 8
            (fun _ => (List.range 100).map (fun i => toString i)) ["a.zip"]) z).length ≤ 8 ∧
        ∀ es ∈ zipUnitsFor (BatchBuilder.build 8
            (fun _ => (List.range 100).map (fun i => toString i)) ["a.zip"]) z,
          es.length ≤ ((((fun _ => (List.range 100).map (fun i => toString i)) z).filter
            (fun e => !strEndsWith e "/")).length + 8 - 1) / 8) ∧
      ((BatchBuilder.build 8 (fun _ => (List.range 100).map (fun i => toString i))
          ["a.zip"]).map Prod.snd
        = List.range (BatchBuilder.build 8
            (fun _ => (List.range 100).map (fun i => toString i)) ["a.zip"]).length)) :=
  ⟨by decide, by decide, by decide,
    batch_builder_partitions 8 (fun _ => (List.range 100).map (fun i => toString i)) ["a.zip"]
      (by decide) (by decide)⟩

/-- C8 (amended): the fingerprint is exactly the string
`"<mtime_ns>:<size>"`, and two directory entries have equal fingerprints iff
they agree on `mtime_ns` and `size` — file content does not enter it. -/
theorem fingerprint_mtime_size_iff (e1 e2 : FileEntry) :
    fingerprintOf e1 = toString e1.mtime_ns ++ ":" ++ toString e1.size ∧
    (fingerprintOf e1 = fingerprintOf e2 ↔
      e1.mtime_ns = e2.mtime_ns ∧ e1.size = e2.size) :=
  ⟨rfl, fingerprintOf_eq_iff e1 e2⟩

/-- Counterexample for C8 as stated: a content modification that preserves
`mtime_ns` and `size` (e.g. a same-length in-place edit with the timestamp
restored) does not change the fingerprint, so "any content modification
changes it" is false on this code. -/
theorem fingerprint_ignores_content :
    fingerprintOf (FileEntry.mk "a.txt" true 1 3 "abc")
      = fingerprintOf (FileEntry.mk "a.txt" true 1 3 "abd") ∧
    (FileEntry.mk "a.txt" true 1 3 "abc").content
      ≠ (FileEntry.mk "a.txt" true 1 3 "abd").content :=
  ⟨rfl, by decide⟩

/-- C10: `get_indexed_files` ignores every row whose metadata lacks a
non-empty `source` or `fingerprint`, and binds each remaining source to the
fingerprint of the last row carrying it, so each source maps to exactly one
fingerprint. -/
theorem get_indexed_files_spec (store : List Row) (q : String) :
    ChunkStore.get_indexed_files store q
        = ChunkStore.gifMetas ((store.map (·.meta)).filter
            (fun m => (metaBinding m).isSome)) q ∧
    ChunkStore.get_indexed_files store q
        = ((((store.map (·.meta)).filterMap metaBinding).filter
            (fun p => p.1 == q)).getLast?).map (·.2) :=
  ⟨(gifMetas_filter _ q).symm, gifMetas_last _ q⟩


/-! ### Upsert call-trace lemmas -/

theorem upsertCallsGo_take (fail : Nat → List Row → Bool) :
    ∀ (bs : List (List Row)) (k : Nat),
      (upsertCallsGo fail k bs).1 = bs.take (upsertCallsGo fail k bs).1.length
  | [], _ => rfl
  | b :: bs, k => by
    by_cases hf : fail k b = true
    · have h : upsertCallsGo fail k (b :: bs) = ([b], false) := by
        rw [upsertCallsGo, if_pos hf]
      rw [h]
      rfl
    · have h : upsertCallsGo fail k (b :: bs)
          = (b :: (upsertCallsGo fail (k + 1) bs).1, (upsertCallsGo fail (k + 1) bs).2) := by
        rw [upsertCallsGo, if_neg hf]
      rw [h, List.length_cons, List.take_succ_cons, ← upsertCallsGo_take fail bs (k + 1)]

theorem upsertCallsGo_true (fail : Nat → List Row → Bool) :
    ∀ (bs : List (List Row)) (k : Nat), (upsertCallsGo fail k bs).2 = true →
      (upsertCallsGo fail k bs).1 = bs
  | [], _, _ => rfl
  | b :: bs, k, h => by
    by_cases hf : fail k b = true
    · have heq : upsertCallsGo fail k (b :: bs) = ([b], false) := by
        rw [upsertCallsGo, if_pos hf]
      rw [heq] at h
      exact absurd h (by simp)
    · have heq : upsertCallsGo fail k (b :: bs)
          = (b :: (upsertCallsGo fail (k + 1) bs).1, (upsertCallsGo fail (k + 1) bs).2) := by
        rw [upsertCallsGo, if_neg hf]
      rw [heq] at h ⊢
      show b :: (upsertCallsGo fail (k + 1) bs).1 = b :: bs
      rw [upsertCallsGo_true fail bs (k + 1) h]

theorem upsertCallsGo_false (fail : Nat → List Row → Bool) :
    ∀ (bs : List (List Row)) (k : Nat), (upsertCallsGo fail k bs).2 = false →
      ∃ b, (upsertCallsGo fail k bs).1.getLast? = some b ∧
        fail (k + (upsertCallsGo fail k bs).1.length - 1) b = true
  | [], _, h => absurd h (by simp [upsertCallsGo])
  | b :: bs, k, h => by
    by_cases hf : fail k b = true
    · have heq : upsertCallsGo fail k (b :: bs) = ([b], false) := by
        rw [upsertCallsGo, if_pos hf]
      rw [heq]
      exact ⟨b, rfl, by simpa using hf⟩
    · have heq : upsertCallsGo fail k (b :: bs)
          = (b :: (upsertCallsGo fail (k + 1) bs).1, (upsertCallsGo fail (k + 1) bs).2) := by
        rw [upsertCallsGo, if_neg hf]
      rw [heq] at h
      rcases upsertCallsGo_false fail bs (k + 1) h with ⟨b', hlast, hfail⟩
      rw [heq]
      show ∃ b1, (b :: (upsertCallsGo fail (k + 1) bs).1).getLast? = some b1 ∧
        fail (k + (b :: (upsertCallsGo fail (k + 1) bs).1).length - 1) b1 = true
      rcases hne : (upsertCallsGo fail (k + 1) bs).1 with _ | ⟨x, xs⟩
      · rw [hne] at hlast
        simp at hlast
      · rw [hne] at hlast hfail
        refine ⟨b', ?_, ?_⟩
        · rw [List.getLast?_cons_cons]
          exact hlast
        · have harith : k + (b :: x :: xs).length - 1 = k + 1 + (x :: xs).length - 1 := by
            simp only [List.length_cons]
            omega
          rw [harith]
          exact hfail

/-- C7 (amended): `ChunkStore.upsert` splits the batch into sub-batches of
at most `UPSERT_BATCH = 5000` rows and issues one store call per sub-batch,
in order; the attempted calls are exactly the first sub-batches (each
attempted once); the first failing call aborts the invocation at once — no
retry, no back-off — and later sub-batches are never attempted. -/
theorem upsert_sub_batches_no_retry (fail : Nat → List Row → Bool) (chunks : List Row) :
    (∀ b ∈ (ChunkStore.upsertCalls fail chunks).1, b.length ≤ UPSERT_BATCH) ∧
    ((ChunkStore.upsertCalls fail chunks).1
        = (if chunks.isEmpty then [] else chunkEvery UPSERT_BATCH chunks).take
            (ChunkStore.upsertCalls fail chunks).1.length) ∧
    ((ChunkStore.upsertCalls fail chunks).2 = true →
      (ChunkStore.upsertCalls fail chunks).1
        = (if chunks.isEmpty then [] else chunkEvery UPSERT_BATCH chunks)) ∧
    ((ChunkStore.upsertCalls fail chunks).2 = false →
      ∃ b, (ChunkStore.upsertCalls fail chunks).1.getLast? = some b ∧
        fail ((ChunkStore.upsertCalls fail chunks).1.length - 1) b = true) := by
  by_cases h : chunks.isEmpty
  · have heq : ChunkStore.upsertCalls fail chunks = ([], true) := by
      rw [ChunkStore.upsertCalls, if_pos h]
    rw [heq, if_pos h]
    refine ⟨by simp, rfl, fun _ => rfl, fun hc => absurd hc (by simp)⟩
  · have heq : ChunkStore.upsertCalls fail chunks
        = upsertCallsGo fail 0 (chunkEvery UPSERT_BATCH chunks) := by
      rw [ChunkStore.upsertCalls, if_neg h]
    rw [heq, if_neg h]
    refine ⟨?_, upsertCallsGo_take fail _ 0, upsertCallsGo_true fail _ 0, ?_⟩
    · intro b hb
      have hsub : b ∈ chunkEvery UPSERT_BATCH chunks := by
        have htake := upsertCallsGo_take fail (chunkEvery UPSERT_BATCH chunks) 0
        rw [htake] at hb
        exact List.mem_of_mem_take hb
      exact mem_chunkEvery_length hsub
    · intro hc
      have := upsertCallsGo_false fail (chunkEvery UPSERT_BATCH chunks) 0 hc
      simpa using this

/-- Counterexample for C7 as stated: against a store whose upsert call
always fails, `ChunkStore.upsert` makes exactly one call and the invocation
fails — the failing sub-batch is never retried. -/
theorem upsert_retry_counterexample :
    (ChunkStore.upsertCalls (fun _ _ => true)
        [Row.mk "c1" [0] "t" (ChunkMeta.mk (some "a.txt") none (some "1:1"))]).1.length = 1 ∧
    (ChunkStore.upsertCalls (fun _ _ => true)
        [Row.mk "c1" [0] "t" (ChunkMeta.mk (some "a.txt") none (some "1:1"))]).2 = false :=
  ⟨by decide, by decide⟩

/-! ### Index runs with an empty scan -/

theorem index_of_scan_empty (o : Oracles) (fs : FS) (store : List Row)
    (h : Scanner.scan fs (ChunkStore.get_indexed_files store) = []) :
    IndexService.index o fs store = (store, "Indexed 0 passages.") := by
  have hr : IndexService.results o fs store = [] := by
    rw [IndexService.results, IndexService.batches, h]
    rfl
  show ((IndexService.results o fs store).foldl (fun st r => ChunkStore.upsert st r.1 r.2) store,
    "Indexed " ++ commaFmt ((IndexService.results o fs store).foldl
      (fun n r => n + r.1.length) 0) ++ " passages.") = (store, "Indexed 0 passages.")
  rw [hr]
  rfl

/-- C3 (amended): whenever `Scanner.scan` returns an empty list, `index()`
performs no store writes and returns the summary string
`"Indexed 0 passages."` (the code has no "no changes" branch). -/
theorem index_empty_scan_summary (o : Oracles) (fs : FS) (store : List Row)
    (h : Scanner.scan fs (ChunkStore.get_indexed_files store) = []) :
    IndexService.index o fs store = (store, "Indexed 0 passages.") :=
  index_of_scan_empty o fs store h

/-- Witness for the amended C3 at a concrete empty docs directory. -/
theorem index_empty_scan_summary_witness :
    Scanner.scan (FS.mk (some []) (fun _ => []))
        (ChunkStore.get_indexed_files []) = [] ∧
    IndexService.index
        (Oracles.mk (fun _ => []) (fun _ _ => none) (fun _ => []) (fun _ => []) 1 (fun _ _ => ""))
        (FS.mk (some []) (fun _ => [])) []
      = ([], "Indexed 0 passages.") :=
  ⟨by decide, index_empty_scan_summary _ _ _ (by decide)⟩

/-- Counterexample for C3 as stated: on an empty docs directory the scan is
empty, yet `index()` returns `"Indexed 0 passages."`, not `"no changes"` —
no such string exists anywhere in the code. -/
theorem index_no_changes_counterexample :
    Scanner.scan (FS.mk (some []) (fun _ => []))
        (ChunkStore.get_indexed_files []) = [] ∧
    (IndexService.index
        (Oracles.mk (fun _ => []) (fun _ _ => none) (fun _ => []) (fun _ => []) 1 (fun _ _ => ""))
        (FS.mk (some []) (fun _ => [])) []).2 ≠ "no changes" :=
  ⟨by decide, by decide⟩

/-- C9 (amended): when the docs directory is missing, `Scanner.scan` returns
`[]` (its explicit `exists()` guard) and `index()` completes normally with
the success summary `"Indexed 0 passages."`; no configuration error is
raised anywhere. -/
theorem index_missing_dir (o : Oracles) (fs : FS) (store : List Row)
    (h : fs.docsDir = none) :
    Scanner.scan fs (ChunkStore.get_indexed_files store) = [] ∧
    IndexService.index o fs store = (store, "Indexed 0 passages.") := by
  have hscan : Scanner.scan fs (ChunkStore.get_indexed_files store) = [] := by
    simp [Scanner.scan, h]
  exact ⟨hscan, index_of_scan_empty o fs store hscan⟩

/-- Witness for the amended C9 at a concretely missing directory. -/
theorem index_missing_dir_witness :
    (FS.mk none (fun _ => [])).docsDir = none ∧
    (Scanner.scan (FS.mk none (fun _ => [])) (ChunkStore.get_indexed_files []) = [] ∧
      IndexService.index
          (Oracles.mk (fun _ => []) (fun _ _ => none) (fun _ => []) (fun _ => []) 1 (fun _ _ => ""))
          (FS.mk none (fun _ => [])) []
        = ([], "Indexed 0 passages.")) :=
  ⟨rfl, index_missing_dir _ _ _ rfl⟩

/-- Counterexample for C9 as stated: with the docs directory missing, the
run does not fail fatally — `index()` completes and returns the success
summary. -/
theorem index_missing_dir_counterexample :
    (IndexService.index
        (Oracles.mk (fun _ => []) (fun _ _ => none) (fun _ => []) (fun _ => []) 1 (fun _ _ => ""))
        (FS.mk none (fun _ => [])) []).2 = "Indexed 0 passages." :=
  by decide


/-- C6: for every work unit, `EmbedWorker.embed` emits exactly one tuple per
splitter node, in node order, with the i-th vector being the i-th embedding
returned by the sidecar (per-request vector blocks appended in order); no
tuple is deduplicated or reordered.  The hypotheses are the sidecar's
contract: a positive batch size and one vector per input text. -/
theorem embed_worker_order (o : Oracles) (fs : FS) (u : WorkUnit) (wid : Nat)
    (hb : 1 ≤ o.teiBatchSize) (ht : ∀ b, (o.tei b).length = b.length) :
    ((EmbedWorker.embed o fs u wid).1).map (·.id)
        = (getNodes o wid (FileParser.parse fs o u)).map (·.id) ∧
    ((EmbedWorker.embed o fs u wid).1).map (·.text)
        = (getNodes o wid (FileParser.parse fs o u)).map (·.text) ∧
    ((EmbedWorker.embed o fs u wid).1).map (·.meta)
        = (getNodes o wid (FileParser.parse fs o u)).map (·.meta) ∧
    ((EmbedWorker.embed o fs u wid).1).map (·.vec)
        = embedTexts o.teiBatchSize o.tei
            ((getNodes o wid (FileParser.parse fs o u)).map (·.text)) ∧
    embedTexts o.teiBatchSize o.tei ((getNodes o wid (FileParser.parse fs o u)).map (·.text))
        = ((chunkEvery o.teiBatchSize
            ((getNodes o wid (FileParser.parse fs o u)).map (·.text))).map o.tei).flatten ∧
    ((EmbedWorker.embed o fs u wid).1).length
        = (getNodes o wid (FileParser.parse fs o u)).length ∧
    (EmbedWorker.embed o fs u wid).2 = wid := by
  obtain ⟨h1, h2, h3, h4, h5⟩ :=
    chunkAndEmbed_proj o (getNodes o wid (FileParser.parse fs o u)) hb ht
  exact ⟨h1, h3, h4, h2, rfl, h5, rfl⟩

/-- Witness for C6 on a concrete one-file work unit with a sidecar that
returns one vector per text. -/
theorem embed_worker_order_witness :
    1 ≤ (Oracles.mk (fun _ => ["hello", "world"]) (fun _ _ => none) (fun t => [t, t])
        (fun b => b.map (fun s => [(s.length : Int)])) 3
        (fun w k => toString w ++ "-" ++ toString k)).teiBatchSize ∧
    (∀ b, ((Oracles.mk (fun _ => ["hello", "world"]) (fun _ _ => none) (fun t => [t, t])
        (fun b => b.map (fun s => [(s.length : Int)])) 3
        (fun w k => toString w ++ "-" ++ toString k)).tei b).length = b.length) ∧
    (((EmbedWorker.embed (Oracles.mk (fun _ => ["hello", "world"]) (fun _ _ => none)
          (fun t => [t, t]) (fun b => b.map (fun s => [(s.length : Int)])) 3
          (fun w k => toString w ++ "-" ++ toString k))
        (FS.mk (some [FileEntry.mk "a.txt" true 1 3 "abc"]) (fun _ => []))
        (WorkUnit.files ["a.txt"]) 0).1).map (·.id)
      = (getNodes (Oracles.mk (fun _ => ["hello", "world"]) (fun _ _ => none)
          (fun t => [t, t]) (fun b => b.map (fun s => [(s.length : Int)])) 3
          (fun w k => toString w ++ "-" ++ toString k)) 0
        (FileParser.parse (FS.mk (some [FileEntry.mk "a.txt" true 1 3 "abc"]) (fun _ => []))
          (Oracles.mk (fun _ => ["hello", "world"]) (fun _ _ => none)
            (fun t => [t, t]) (fun b => b.map (fun s => [(s.length : Int)])) 3
            (fun w k => toString w ++ "-" ++ toString k))
          (WorkUnit.files ["a.txt"]))).map (·.id)) :=
  ⟨by decide, fun b => List.length_map b _,
    (embed_worker_order
      (Oracles.mk (fun _ => ["hello", "world"]) (fun _ _ => none) (fun t => [t, t])
        (fun b => b.map (fun s => [(s.length : Int)])) 3
        (fun w k => toString w ++ "-" ++ toString k))
      (FS.mk (some [FileEntry.mk "a.txt" true 1 3 "abc"]) (fun _ => []))
      (WorkUnit.files ["a.txt"]) 0 (by decide)
      (fun b => List.length_map b _)).1⟩

/-- C1 (amended): `UpsertWorker.upsert` issues no delete at all — every row
present in the store before the call keeps its id present afterwards, and a
row whose id is not among the upserted chunk ids survives unchanged.  In
particular rows carrying a source's old fingerprint are not removed when a
new fingerprint generation arrives. -/
theorem upsert_never_deletes (store chunks : List Row) (wid : Nat) (r : Row)
    (hr : r ∈ store) :
    (∃ t ∈ ChunkStore.upsert store chunks wid, t.id = r.id) ∧
    ((∀ c ∈ chunks, c.id ≠ r.id) → r ∈ ChunkStore.upsert store chunks wid) :=
  ⟨chunkStore_upsert_id_surj store chunks wid r hr,
   fun h => chunkStore_upsert_untouched store chunks wid r hr h⟩

/-- Witness for the amended C1: an old-generation row survives an upsert of
a new-generation chunk for the same source. -/
theorem upsert_never_deletes_witness :
    (Row.mk "old" [0] "t" (ChunkMeta.mk (some "a.txt") none (some "1:3")))
        ∈ [Row.mk "old" [0] "t" (ChunkMeta.mk (some "a.txt") none (some "1:3"))] ∧
    ((∃ t ∈ ChunkStore.upsert
          [Row.mk "old" [0] "t" (ChunkMeta.mk (some "a.txt") none (some "1:3"))]
          [Row.mk "new" [1] "t2" (ChunkMeta.mk (some "a.txt") none (some "2:3"))] 0,
        t.id = (Row.mk "old" [0] "t" (ChunkMeta.mk (some "a.txt") none (some "1:3"))).id) ∧
      ((∀ c ∈ [Row.mk "new" [1] "t2" (ChunkMeta.mk (some "a.txt") none (some "2:3"))],
          c.id ≠ (Row.mk "old" [0] "t" (ChunkMeta.mk (some "a.txt") none (some "1:3"))).id) →
        (Row.mk "old" [0] "t" (ChunkMeta.mk (some "a.txt") none (some "1:3")))
          ∈ ChunkStore.upsert
            [Row.mk "old" [0] "t" (ChunkMeta.mk (some "a.txt") none (some "1:3"))]
            [Row.mk "new" [1] "t2" (ChunkMeta.mk (some "a.txt") none (some "2:3"))] 0)) :=
  ⟨by decide, upsert_never_deletes _ _ 0 _ (by decide)⟩

/-- Counterexample for C1 as stated: index a file, change it on disk, index
again.  The second `index()` run completes successfully, yet the store then
holds chunks for source `a.txt` under two different fingerprints — no
`delete where source=F and fingerprint=old_fp` was ever issued, so
per-source single-generation fails. -/
theorem upsert_two_generations_counterexample :
    ((IndexService.index
        (Oracles.mk (fun _ => ["abc"]) (fun _ _ => none) (fun t => [t])
          (fun b => b.map (fun _ => [0])) 32
          (fun w k => "r2-" ++ toString w ++ "-" ++ toString k))
        (FS.mk (some [FileEntry.mk "a.txt" true 2 3 "abd"]) (fun _ => []))
        (IndexService.index
          (Oracles.mk (fun _ => ["abc"]) (fun _ _ => none) (fun t => [t])
            (fun b => b.map (fun _ => [0])) 32
            (fun w k => "r1-" ++ toString w ++ "-" ++ toString k))
          (FS.mk (some [FileEntry.mk "a.txt" true 1 3 "abc"]) (fun _ => [])) []).1).1.map
        (fun r => (r.meta.source, r.meta.fingerprint)))
      = [(some "a.txt", some "1:3"), (some "a.txt", some "2:3")] ∧
    (IndexService.index
        (Oracles.mk (fun _ => ["abc"]) (fun _ _ => none) (fun t => [t])
          (fun b => b.map (fun _ => [0])) 32
          (fun w k => "r2-" ++ toString w ++ "-" ++ toString k))
        (FS.mk (some [FileEntry.mk "a.txt" true 2 3 "abd"]) (fun _ => []))
        (IndexService.index
          (Oracles.mk (fun _ => ["abc"]) (fun _ _ => none) (fun t => [t])
            (fun b => b.map (fun _ => [0])) 32
            (fun w k => "r1-" ++ toString w ++ "-" ++ toString k))
          (FS.mk (some [FileEntry.mk "a.txt" true 1 3 "abc"]) (fun _ => [])) []).1).2
      = "Indexed 1 passages." ∧
    (some "1:3" : Option String) ≠ (some "2:3" : Option String) :=
  ⟨by decide, by decide, by decide⟩


/-! ### Lemmas towards idempotence of `index` -/

theorem built_map_fst (n : Nat) (zipfs : String → List String) (files : List String) :
    (BatchBuilder.build n zipfs files).map Prod.fst
      = BatchBuilder.split_files n files ++ BatchBuilder.split_zips n zipfs files := by
  rw [BatchBuilder.build, List.map_map]
  have h : (Prod.fst ∘ fun p : Nat × WorkUnit => (p.2, p.1)) = Prod.snd := rfl
  rw [h, List.enum_map_snd]

theorem name_inj {es : List FileEntry} (hnd : (es.map (·.name)).Nodup) :
    ∀ a ∈ es, ∀ b ∈ es, a.name = b.name → a = b := by
  induction es with
  | nil =>
    intro a ha
    simp at ha
  | cons e t ih =>
    have hmap : (e :: t).map (·.name) = e.name :: t.map (·.name) := rfl
    rw [hmap] at hnd
    rcases List.nodup_cons.mp hnd with ⟨hn, ht⟩
    intro a ha b hb hab
    rcases List.mem_cons.mp ha with ha1 | ha1 <;> rcases List.mem_cons.mp hb with hb1 | hb1
    · rw [ha1, hb1]
    · rw [ha1] at hab
      exact absurd (by rw [hab]; exact List.mem_map_of_mem (·.name) hb1) hn
    · rw [hb1] at hab
      exact absurd (by rw [← hab]; exact List.mem_map_of_mem (·.name) ha1) hn
    · exact ih ht a ha1 b hb1 hab

theorem find_name {es : List FileEntry} (hnd : (es.map (·.name)).Nodup)
    {e : FileEntry} (he : e ∈ es) :
    es.find? (fun x => x.name == e.name) = some e := by
  induction es with
  | nil => simp at he
  | cons a t ih =>
    have hmap : (a :: t).map (·.name) = a.name :: t.map (·.name) := rfl
    rw [hmap] at hnd
    rcases List.nodup_cons.mp hnd with ⟨hn, ht⟩
    rcases List.mem_cons.mp he with rfl | he
    · exact List.find?_cons_of_pos t (beq_self_eq_true _)
    · rw [List.find?_cons_of_neg t ?hne]
      · exact ih ht he
      case hne =>
        rw [Bool.not_eq_true, beq_eq_false_iff_ne]
        intro hcon
        exact hn (by rw [hcon]; exact List.mem_map_of_mem (·.name) he)

theorem statFingerprint_eq {fs : FS} {es : List FileEntry} (hdir : fs.docsDir = some es)
    (hnd : (es.map (·.name)).Nodup) {e : FileEntry} (he : e ∈ es) :
    statFingerprint fs e.name = fingerprintOf e := by
  rw [statFingerprint, hdir]
  show (match es.find? (fun x => x.name == e.name) with
    | some x => fingerprintOf x
    | none => "") = fingerprintOf e
  rw [find_name hnd he]

theorem parse_files_meta {fs : FS} {o : Oracles} {ps : List String} {d : Doc}
    (hd : d ∈ FileParser.parse_files fs o ps) :
    ∃ nm ∈ ps, d.text ∈ o.readDoc nm ∧
      d.meta = ChunkMeta.mk (some nm) none (some (statFingerprint fs nm)) := by
  rcases List.mem_flatMap.mp hd with ⟨nm, hnm, hdoc⟩
  rcases List.mem_map.mp hdoc with ⟨t, htm, heq⟩
  exact ⟨nm, hnm, by rw [← heq]; exact htm, by rw [← heq]⟩

theorem parse_files_mem {fs : FS} {o : Oracles} {ps : List String} {nm : String} {t : String}
    (hnm : nm ∈ ps) (ht : t ∈ o.readDoc nm) :
    Doc.mk t (ChunkMeta.mk (some nm) none (some (statFingerprint fs nm)))
      ∈ FileParser.parse_files fs o ps :=
  List.mem_flatMap.mpr ⟨nm, hnm, List.mem_map.mpr ⟨t, ht, rfl⟩⟩

theorem parse_zip_meta {fs : FS} {o : Oracles} {z : String} {es' : List String} {d : Doc}
    (hd : d ∈ FileParser.parse_zip fs o z es') :
    ∃ en ∈ es', keepText? (o.readZipEntry z en) = some d.text ∧
      d.meta = ChunkMeta.mk (some z) (some en) (some (statFingerprint fs z)) := by
  rcases List.mem_filterMap.mp hd with ⟨en, hen, hk⟩
  cases hkt : keepText? (o.readZipEntry z en) with
  | none =>
    rw [hkt] at hk
    simp at hk
  | some t =>
    rw [hkt] at hk
    have hdq : Doc.mk t (ChunkMeta.mk (some z) (some en) (some (statFingerprint fs z))) = d :=
      Option.some.inj hk
    exact ⟨en, hen, by rw [← hdq]; exact hkt, by rw [← hdq]⟩

theorem parse_zip_mem {fs : FS} {o : Oracles} {z : String} {es' : List String}
    {en : String} {t : String} (hen : en ∈ es')
    (hk : keepText? (o.readZipEntry z en) = some t) :
    Doc.mk t (ChunkMeta.mk (some z) (some en) (some (statFingerprint fs z)))
      ∈ FileParser.parse_zip fs o z es' :=
  List.mem_filterMap.mpr ⟨en, hen, by rw [hk]; rfl⟩

theorem metaBinding_some {m : ChunkMeta} {p : String × String}
    (h : metaBinding m = some p) :
    m.source = some p.1 ∧ m.fingerprint = some p.2 := by
  cases hs : m.source with
  | none =>
    simp only [metaBinding, hs] at h
    exact absurd h (by simp)
  | some s =>
    cases hf : m.fingerprint with
    | none =>
      simp only [metaBinding, hs, hf] at h
      exact absurd h (by simp)
    | some f =>
      simp only [metaBinding, hs, hf] at h
      by_cases he : (s.data.isEmpty || f.data.isEmpty) = true
      · rw [if_pos he] at h
        exact absurd h (by simp)
      · rw [if_neg he] at h
        have hp := Option.some.inj h
        rw [← hp]
        exact ⟨rfl, rfl⟩

theorem metaBinding_of_fields {m : ChunkMeta} {s f : String}
    (hs : m.source = some s) (hf : m.fingerprint = some f)
    (hse : s.data ≠ []) (hfe : f.data ≠ []) :
    metaBinding m = some (s, f) := by
  simp only [metaBinding, hs, hf]
  rw [if_neg]
  rw [Bool.or_eq_true, not_or]
  constructor <;> rw [List.isEmpty_iff]
  · exact hse
  · exact hfe

theorem mem_build_units {n : Nat} {zipfs : String → List String} {files : List String}
    {u : WorkUnit} {wid : Nat} (hn : 1 ≤ n)
    (h : (u, wid) ∈ BatchBuilder.build n zipfs files) :
    (∃ ps, u = WorkUnit.files ps ∧
      ∀ p ∈ ps, p ∈ files ∧ strEndsWith p ".zip" = false) ∨
    (∃ z es', u = WorkUnit.zipEntries z es' ∧ z ∈ files ∧ strEndsWith z ".zip" = true ∧
      ∀ x ∈ es', x ∈ (zipfs z).filter (fun e => !strEndsWith e "/")) := by
  have hu : u ∈ BatchBuilder.split_files n files ++ BatchBuilder.split_zips n zipfs files := by
    have h1 : u ∈ (BatchBuilder.build n zipfs files).map Prod.fst :=
      List.mem_map_of_mem Prod.fst h
    rwa [built_map_fst] at h1
  rcases List.mem_append.mp hu with hu | hu
  · left
    rcases List.mem_map.mp hu with ⟨ps, hps, rfl⟩
    refine ⟨ps, rfl, ?_⟩
    intro p hp
    have := mem_of_mem_chunk hn hps hp
    rcases List.mem_filter.mp this with ⟨hf, hnz⟩
    exact ⟨hf, by rwa [Bool.not_eq_true'] at hnz⟩
  · right
    rcases List.mem_flatMap.mp hu with ⟨z, hzf, hz⟩
    by_cases hzip : strEndsWith z ".zip" = true
    · rw [if_pos hzip] at hz
      rcases List.mem_map.mp hz with ⟨es', hes, rfl⟩
      refine ⟨z, es', rfl, hzf, hzip, ?_⟩
      intro x hx
      exact mem_of_mem_chunk hn hes hx
    · rw [if_neg hzip] at hz
      simp at hz

theorem mem_build_of_mem_units {n : Nat} {zipfs : String → List String}
    {files : List String} {u : WorkUnit}
    (hu : u ∈ BatchBuilder.split_files n files ++ BatchBuilder.split_zips n zipfs files) :
    ∃ wid, (u, wid) ∈ BatchBuilder.build n zipfs files := by
  have hmem : u ∈ (BatchBuilder.build n zipfs files).map Prod.fst := by
    rw [built_map_fst]
    exact hu
  rcases List.mem_map.mp hmem with ⟨pr, hpr, hfst⟩
  refine ⟨pr.2, ?_⟩
  have : (u, pr.2) = pr := by
    rw [← hfst]
  rw [this]
  exact hpr

theorem loose_unit_exists {n : Nat} {zipfs : String → List String} {files : List String}
    {nm : String} (hn : 1 ≤ n) (hnm : nm ∈ files) (hz : strEndsWith nm ".zip" = false) :
    ∃ ps wid, (WorkUnit.files ps, wid) ∈ BatchBuilder.build n zipfs files ∧ nm ∈ ps := by
  have hreg : nm ∈ files.filter (fun f => !strEndsWith f ".zip") :=
    List.mem_filter.mpr ⟨hnm, by rw [hz]; rfl⟩
  rw [← chunk_flatten hn (files.filter (fun f => !strEndsWith f ".zip"))] at hreg
  rcases List.mem_flatten.mp hreg with ⟨c, hc, hnc⟩
  have hu : WorkUnit.files c
      ∈ BatchBuilder.split_files n files ++ BatchBuilder.split_zips n zipfs files :=
    List.mem_append_left _ (List.mem_map_of_mem WorkUnit.files hc)
  rcases mem_build_of_mem_units hu with ⟨wid, hw⟩
  exact ⟨c, wid, hw, hnc⟩

theorem zip_unit_exists {n : Nat} {zipfs : String → List String} {files : List String}
    {z en : String} (hn : 1 ≤ n) (hz : z ∈ files) (hzip : strEndsWith z ".zip" = true)
    (hen : en ∈ (zipfs z).filter (fun e => !strEndsWith e "/")) :
    ∃ es' wid, (WorkUnit.zipEntries z es', wid) ∈ BatchBuilder.build n zipfs files ∧
      en ∈ es' := by
  rw [← chunk_flatten hn ((zipfs z).filter (fun e => !strEndsWith e "/"))] at hen
  rcases List.mem_flatten.mp hen with ⟨c, hc, henc⟩
  have hu : WorkUnit.zipEntries z c
      ∈ BatchBuilder.split_files n files ++ BatchBuilder.split_zips n zipfs files := by
    refine List.mem_append_right _ ?_
    refine List.mem_flatMap.mpr ⟨z, hz, ?_⟩
    rw [if_pos hzip]
    exact List.mem_map_of_mem (WorkUnit.zipEntries z) hc
  rcases mem_build_of_mem_units hu with ⟨wid, hw⟩
  exact ⟨c, wid, hw, henc⟩


theorem run_metas (o : Oracles) (fs : FS) (store : List Row)
    (hb : 1 ≤ o.teiBatchSize) (ht : ∀ b, (o.tei b).length = b.length) :
    (runChunks o fs store).map (·.meta)
      = (IndexService.batches fs store).flatMap (fun b => unitMetas o fs b.1) := by
  rw [runChunks, List.map_flatMap, IndexService.results, List.flatMap_map]
  refine List.flatMap_congr ?_
  intro b _
  exact embed_meta o fs b.1 b.2 hb ht

theorem n_workers_pos : 1 ≤ N_WORKERS * WORKERS_PER_GPU := by decide

theorem run_meta_origin (o : Oracles) (fs : FS) (store : List Row)
    (hb : 1 ≤ o.teiBatchSize) (ht : ∀ b, (o.tei b).length = b.length) :
    ∀ m ∈ (runChunks o fs store).map (·.meta),
      ∃ nm, nm ∈ Scanner.scan fs (ChunkStore.get_indexed_files store) ∧
        m.source = some nm ∧ m.fingerprint = some (statFingerprint fs nm) ∧
        ∃ t ∈ keptTexts o fs nm, o.splitText t ≠ [] := by
  intro m hm
  rw [run_metas o fs store hb ht] at hm
  rcases List.mem_flatMap.mp hm with ⟨b, hbb, hmb⟩
  rcases mem_build_units n_workers_pos hbb with
    ⟨ps, hu, hps⟩ | ⟨z, es', hu, hzf, hzip, hes⟩
  · rw [unitMetas, hu] at hmb
    rcases List.mem_flatMap.mp hmb with ⟨d, hd, hmd⟩
    rcases parse_files_meta hd with ⟨nm, hnm, htext, hdm⟩
    rcases List.mem_map.mp hmd with ⟨t', ht', hmeq⟩
    rcases hps nm hnm with ⟨hscan, hnz⟩
    refine ⟨nm, hscan, ?_, ?_, d.text, ?_, ?_⟩
    · rw [← hmeq, hdm]
    · rw [← hmeq, hdm]
    · rw [keptTexts, if_neg (by rw [hnz]; simp)]
      exact htext
    · exact List.ne_nil_of_mem ht'
  · rw [unitMetas, hu] at hmb
    rcases List.mem_flatMap.mp hmb with ⟨d, hd, hmd⟩
    rcases parse_zip_meta hd with ⟨en, hen, hkeep, hdm⟩
    rcases List.mem_map.mp hmd with ⟨t', ht', hmeq⟩
    refine ⟨z, hzf, ?_, ?_, d.text, ?_, ?_⟩
    · rw [← hmeq, hdm]
    · rw [← hmeq, hdm]
    · rw [keptTexts, if_pos hzip]
      exact List.mem_filterMap.mpr ⟨en, hes en hen, hkeep⟩
    · exact List.ne_nil_of_mem ht'

theorem run_meta_exists (o : Oracles) (fs : FS) (store : List Row)
    (hb : 1 ≤ o.teiBatchSize) (ht : ∀ b, (o.tei b).length = b.length) {nm : String}
    (hnm : nm ∈ Scanner.scan fs (ChunkStore.get_indexed_files store))
    (hy : fileYield o fs nm ≠ 0) :
    ∃ m ∈ (runChunks o fs store).map (·.meta),
      m.source = some nm ∧ m.fingerprint = some (statFingerprint fs nm) := by
  have hex : ∃ t ∈ keptTexts o fs nm, o.splitText t ≠ [] := by
    by_contra hcon
    push_neg at hcon
    apply hy
    rw [fileYield, List.sum_eq_zero_iff]
    intro x hx
    rcases List.mem_map.mp hx with ⟨t, htk, rfl⟩
    rw [hcon t htk]
    rfl
  rcases hex with ⟨t, htk, hts⟩
  rw [run_metas o fs store hb ht]
  rcases List.exists_mem_of_ne_nil _ hts with ⟨s0, hs0⟩
  by_cases hz : strEndsWith nm ".zip" = true
  · have htk' : t ∈ ((fs.zipNames nm).filter (fun e => !strEndsWith e "/")).filterMap
        (fun en => keepText? (o.readZipEntry nm en)) := by
      rw [keptTexts, if_pos hz] at htk
      exact htk
    rcases List.mem_filterMap.mp htk' with ⟨en, hen, hke⟩
    rcases zip_unit_exists n_workers_pos hnm hz hen with ⟨es', wid, hmemb, henes⟩
    refine ⟨ChunkMeta.mk (some nm) (some en) (some (statFingerprint fs nm)), ?_, rfl, rfl⟩
    refine List.mem_flatMap.mpr ⟨(WorkUnit.zipEntries nm es', wid), hmemb, ?_⟩
    rw [unitMetas]
    refine List.mem_flatMap.mpr
      ⟨Doc.mk t (ChunkMeta.mk (some nm) (some en) (some (statFingerprint fs nm))),
        parse_zip_mem henes hke, ?_⟩
    rw [docNodeMetas]
    exact List.mem_map.mpr ⟨s0, hs0, rfl⟩
  · have htk' : t ∈ o.readDoc nm := by
      rw [keptTexts, if_neg hz] at htk
      exact htk
    rcases loose_unit_exists n_workers_pos hnm (Bool.not_eq_true _ ▸ hz) with
      ⟨ps, wid, hmemb, hnps⟩
    refine ⟨ChunkMeta.mk (some nm) none (some (statFingerprint fs nm)), ?_, rfl, rfl⟩
    refine List.mem_flatMap.mpr ⟨(WorkUnit.files ps, wid), hmemb, ?_⟩
    rw [unitMetas]
    refine List.mem_flatMap.mpr
      ⟨Doc.mk t (ChunkMeta.mk (some nm) none (some (statFingerprint fs nm))),
        parse_files_mem hnps htk', ?_⟩
    rw [docNodeMetas]
    exact List.mem_map.mpr ⟨s0, hs0, rfl⟩

theorem getNodes_eq_nil {o : Oracles} {wid : Nat} {docs : List Doc}
    (h : ∀ d ∈ docs, o.splitText d.text = []) : getNodes o wid docs = [] := by
  rw [getNodes]
  have hp : docs.flatMap (fun d => (o.splitText d.text).map (fun t => (t, d.meta))) = [] := by
    rw [List.flatMap_eq_nil_iff]
    intro d hd
    rw [h d hd]
    rfl
  rw [hp]
  rfl

theorem splits_nil_of_yield_zero {o : Oracles} {fs : FS} {nm : String} {t : String}
    (hy : fileYield o fs nm = 0) (ht : t ∈ keptTexts o fs nm) : o.splitText t = [] := by
  rw [fileYield, List.sum_eq_zero_iff] at hy
  exact List.eq_nil_of_length_eq_zero
    (hy ((o.splitText t).length) (List.mem_map_of_mem _ ht))

theorem foldl_upsert_nil :
    ∀ (rs : List (List Row × Nat)), (∀ r ∈ rs, r.1 = ([] : List Row)) →
      ∀ st : List Row, rs.foldl (fun acc r => ChunkStore.upsert acc r.1 r.2) st = st
  | [], _, _ => rfl
  | r :: rs, h, st => by
    show rs.foldl _ (ChunkStore.upsert st r.1 r.2) = st
    have h1 : ChunkStore.upsert st r.1 r.2 = st := by
      rw [h r (by simp)]
      rfl
    rw [h1]
    exact foldl_upsert_nil rs (fun x hx => h x (List.mem_cons_of_mem r hx)) st

theorem foldl_count_nil :
    ∀ (rs : List (List Row × Nat)), (∀ r ∈ rs, r.1 = ([] : List Row)) →
      ∀ acc : Nat, rs.foldl (fun n r => n + r.1.length) acc = acc
  | [], _, _ => rfl
  | r :: rs, h, acc => by
    show rs.foldl _ (acc + r.1.length) = acc
    rw [h r (by simp)]
    show rs.foldl _ acc = acc
    exact foldl_count_nil rs (fun x hx => h x (List.mem_cons_of_mem r hx)) acc

theorem index_of_units_empty (o : Oracles) (fs : FS) (store : List Row)
    (h : ∀ b ∈ IndexService.batches fs store, (EmbedWorker.embed o fs b.1 b.2).1 = []) :
    IndexService.index o fs store = (store, "Indexed 0 passages.") := by
  have hres : ∀ r ∈ IndexService.results o fs store, r.1 = ([] : List Row) := by
    intro r hr
    rcases List.mem_map.mp hr with ⟨b, hb, rfl⟩
    exact h b hb
  show ((IndexService.results o fs store).foldl (fun st r => ChunkStore.upsert st r.1 r.2) store,
    "Indexed " ++ commaFmt ((IndexService.results o fs store).foldl
      (fun n r => n + r.1.length) 0) ++ " passages.") = (store, "Indexed 0 passages.")
  rw [foldl_upsert_nil _ hres store, foldl_count_nil _ hres 0]
  rfl


/-- C5: if `index()` completes and the docs directory is unchanged, a second
`index()` run writes nothing: it upserts zero chunks, leaves the store
identical, and reports `"Indexed 0 passages."`.  Hypotheses: directory
entries have distinct, non-empty names (filesystem invariants), the chunk
ids generated by the first run are fresh and distinct (ids are regenerated
per run), and the sidecar honours its contract (positive batch size, one
vector per text). -/
theorem index_idempotent (o : Oracles) (fs : FS) (store0 : List Row)
    (hnames : ((fs.docsDir.getD []).map (·.name)).Nodup)
    (hnonempty : ∀ e ∈ fs.docsDir.getD [], e.name.data ≠ [])
    (hfresh : ∀ r ∈ runChunks o fs store0, ∀ s ∈ store0, r.id ≠ s.id)
    (hids : ((runChunks o fs store0).map (·.id)).Nodup)
    (hbsz : 1 ≤ o.teiBatchSize)
    (htei : ∀ b, (o.tei b).length = b.length) :
    IndexService.index o fs (IndexService.index o fs store0).1
      = ((IndexService.index o fs store0).1, "Indexed 0 passages.") := by
  cases hdir : fs.docsDir with
  | none =>
    have hscan : Scanner.scan fs (ChunkStore.get_indexed_files store0) = [] := by
      simp [Scanner.scan, hdir]
    have h1 := index_of_scan_empty o fs store0 hscan
    rw [h1]
    exact h1
  | some es =>
    have hes : fs.docsDir.getD [] = es := by
      rw [hdir]
      rfl
    rw [hes] at hnames hnonempty
    have hstore1 : (IndexService.index o fs store0).1 = store0 ++ runChunks o fs store0 :=
      index_store_append o fs store0 hfresh hids
    rw [hstore1]
    have hgif1 : ∀ q, ChunkStore.get_indexed_files (store0 ++ runChunks o fs store0) q
        = (ChunkStore.gifMetas ((runChunks o fs store0).map (·.meta)) q).or
            (ChunkStore.get_indexed_files store0 q) := by
      intro q
      show ChunkStore.gifMetas ((store0 ++ runChunks o fs store0).map (·.meta)) q = _
      rw [List.map_append, gifMetas_append]
      rfl
    have horigin := run_meta_origin o fs store0 hbsz htei
    have hnoB : ∀ nm : String,
        nm ∉ Scanner.scan fs (ChunkStore.get_indexed_files store0) →
        ChunkStore.gifMetas ((runChunks o fs store0).map (·.meta)) nm = none := by
      intro nm hnm
      refine gifMetas_eq_none _ nm ?_
      intro m hm f hbm
      rcases metaBinding_some hbm with ⟨hsrc, _⟩
      rcases horigin m hm with ⟨nm', hscan', hsrc', _, _⟩
      rw [hsrc'] at hsrc
      have hq : nm' = nm := Option.some.inj hsrc
      rw [hq] at hscan'
      exact hnm hscan'
    have hyesB : ∀ nm : String,
        nm ∈ Scanner.scan fs (ChunkStore.get_indexed_files store0) →
        fileYield o fs nm ≠ 0 →
        ChunkStore.gifMetas ((runChunks o fs store0).map (·.meta)) nm
          = some (statFingerprint fs nm) := by
      intro nm hnm hy
      rcases (scan_mem_iff fs es _ hdir nm).mp hnm with ⟨e, he, hef, hen, _⟩
      have hsne : nm.data ≠ [] := by
        rw [← hen]
        exact hnonempty e he
      have hfpe : statFingerprint fs nm = fingerprintOf e := by
        rw [← hen]
        exact statFingerprint_eq hdir hnames he
      have hfne : (statFingerprint fs nm).data ≠ [] := by
        rw [hfpe]
        exact fingerprintOf_ne_empty e
      rcases run_meta_exists o fs store0 hbsz htei hnm hy with ⟨m, hm, hms, hmf⟩
      refine gifMetas_eq_some _ nm (statFingerprint fs nm)
        ⟨m, hm, metaBinding_of_fields hms hmf hsne hfne⟩ ?_
      intro m' hm' f hbm'
      rcases metaBinding_some hbm' with ⟨hsrc, hfp⟩
      rcases horigin m' hm' with ⟨nm', _, hsrc', hfp', _⟩
      rw [hsrc'] at hsrc
      have hq : nm' = nm := Option.some.inj hsrc
      rw [hq] at hfp'
      rw [hfp'] at hfp
      exact (Option.some.inj hfp).symm
    have hscan2 : ∀ nm ∈ Scanner.scan fs
        (ChunkStore.get_indexed_files (store0 ++ runChunks o fs store0)),
        fileYield o fs nm = 0 := by
      intro nm hnm2
      rcases (scan_mem_iff fs es _ hdir nm).mp hnm2 with ⟨e, he, hef, hen, hne1⟩
      by_cases hm1 : nm ∈ Scanner.scan fs (ChunkStore.get_indexed_files store0)
      · by_contra hy
        have hsome := hyesB nm hm1 hy
        have hfpe : statFingerprint fs nm = fingerprintOf e := by
          rw [← hen]
          exact statFingerprint_eq hdir hnames he
        apply hne1
        rw [hgif1 nm, hsome, hfpe]
        rfl
      · have h0 : ChunkStore.get_indexed_files store0 nm = some (fingerprintOf e) := by
          by_contra hx
          exact hm1 ((scan_mem_iff fs es _ hdir nm).mpr ⟨e, he, hef, hen, hx⟩)
        exact absurd (by rw [hgif1 nm, hnoB nm hm1, h0]; rfl) hne1
    have hunits : ∀ b ∈ IndexService.batches fs (store0 ++ runChunks o fs store0),
        (EmbedWorker.embed o fs b.1 b.2).1 = [] := by
      intro b hbb
      have hnodes : getNodes o b.2 (FileParser.parse fs o b.1) = [] := by
        rcases mem_build_units n_workers_pos hbb with
          ⟨ps, hu, hps⟩ | ⟨z, es', hu, hzf, hzip, hes'⟩
        · rw [hu]
          refine getNodes_eq_nil ?_
          intro d hd
          rcases parse_files_meta hd with ⟨nm, hnm, htext, _⟩
          rcases hps nm hnm with ⟨hscn, hnz⟩
          refine splits_nil_of_yield_zero (hscan2 nm hscn) ?_
          rw [keptTexts, if_neg (by rw [hnz]; simp)]
          exact htext
        · rw [hu]
          refine getNodes_eq_nil ?_
          intro d hd
          rcases parse_zip_meta hd with ⟨en, hen, hkeep, _⟩
          refine splits_nil_of_yield_zero (hscan2 z hzf) ?_
          rw [keptTexts, if_pos hzip]
          exact List.mem_filterMap.mpr ⟨en, hes' en hen, hkeep⟩
      show (chunkAndEmbed o (getNodes o b.2 (FileParser.parse fs o b.1)), b.2).1 = []
      rw [hnodes]
      rfl
    exact index_of_units_empty o fs (store0 ++ runChunks o fs store0) hunits


/-- Witness for C5: a concrete run over one file, then a second run on the
unchanged directory, which writes nothing and reports zero passages. -/
theorem index_idempotent_witness :
    ((((FS.mk (some [FileEntry.mk "a.txt" true 1 3 "abc"]) (fun _ => [])).docsDir.getD
        []).map (·.name)).Nodup) ∧
    (∀ e ∈ (FS.mk (some [FileEntry.mk "a.txt" true 1 3 "abc"])
        (fun _ => [])).docsDir.getD [], e.name.data ≠ []) ∧
    (∀ r ∈ runChunks
        (Oracles.mk (fun _ => ["abc"]) (fun _ _ => none) (fun t => [t])
          (fun b => b.map (fun _ => [0])) 32
          (fun w k => "r1-" ++ toString w ++ "-" ++ toString k))
        (FS.mk (some [FileEntry.mk "a.txt" true 1 3 "abc"]) (fun _ => [])) [],
      ∀ s ∈ ([] : List Row), r.id ≠ s.id) ∧
    ((runChunks
        (Oracles.mk (fun _ => ["abc"]) (fun _ _ => none) (fun t => [t])
          (fun b => b.map (fun _ => [0])) 32
          (fun w k => "r1-" ++ toString w ++ "-" ++ toString k))
        (FS.mk (some [FileEntry.mk "a.txt" true 1 3 "abc"]) (fun _ => [])) []).map
        (·.id)).Nodup ∧
    1 ≤ (Oracles.mk (fun _ => ["abc"]) (fun _ _ => none) (fun t => [t])
        (fun b => b.map (fun _ => [0])) 32
        (fun w k => "r1-" ++ toString w ++ "-" ++ toString k)).teiBatchSize ∧
    (∀ b, ((Oracles.mk (fun _ => ["abc"]) (fun _ _ => none) (fun t => [t])
        (fun b => b.map (fun _ => [0])) 32
        (fun w k => "r1-" ++ toString w ++ "-" ++ toString k)).tei b).length = b.length) ∧
    IndexService.index
        (Oracles.mk (fun _ => ["abc"]) (fun _ _ => none) (fun t => [t])
          (fun b => b.map (fun _ => [0])) 32
          (fun w k => "r1-" ++ toString w ++ "-" ++ toString k))
        (FS.mk (some [FileEntry.mk "a.txt" true 1 3 "abc"]) (fun _ => []))
        (IndexService.index
          (Oracles.mk (fun _ => ["abc"]) (fun _ _ => none) (fun t => [t])
            (fun b => b.map (fun _ => [0])) 32
            (fun w k => "r1-" ++ toString w ++ "-" ++ toString k))
          (FS.mk (some [FileEntry.mk "a.txt" true 1 3 "abc"]) (fun _ => [])) []).1
      = ((IndexService.index
          (Oracles.mk (fun _ => ["abc"]) (fun _ _ => none) (fun t => [t])
            (fun b => b.map (fun _ => [0])) 32
            (fun w k => "r1-" ++ toString w ++ "-" ++ toString k))
          (FS.mk (some [FileEntry.mk "a.txt" true 1 3 "abc"]) (fun _ => [])) []).1,
        "Indexed 0 passages.") :=
  ⟨by decide, by decide, by decide, by decide, by decide,
    fun b => List.length_map b _,
    index_idempotent
      (Oracles.mk (fun _ => ["abc"]) (fun _ _ => none) (fun t => [t])
        (fun b => b.map (fun _ => [0])) 32
        (fun w k => "r1-" ++ toString w ++ "-" ++ toString k))
      (FS.mk (some [FileEntry.mk "a.txt" true 1 3 "abc"]) (fun _ => [])) []
      (by decide) (by decide) (by decide) (by decide) (by decide)
      (fun b => List.length_map b _)⟩
